import Mathlib

/-!
# Cherryfly — shallow embedding and verification of the spec's claims

This file embeds the algorithmic core of the Cherryfly media-library
repository in Lean 4 and settles the frozen claims about it.

Modelling conventions:
* JavaScript strings are modelled as `List Char` (named `Str` below); all
  string primitives used by the source (`split`, `join`, `startsWith`,
  `includes`, `replace`, template interpolation) are defined from scratch on
  char lists, mirroring the JS semantics used by the code.
* Numbers that the source only ever uses at integral values (`year`,
  `matchScore`, epoch milliseconds) are modelled as `Int`; the frame sampler's
  seek arithmetic is modelled over `ℚ`.
* Asynchronous external calls (Gemini analyze / generate, Supabase storage)
  are modelled as explicit oracles passed in as arguments; a call's outcome is
  an `Except` value.
* `setTimeout`-based sleeping is modelled by recording the requested delay in
  a list (the "realized delay sequence").
-/

/-- JS strings are modelled as lists of characters. -/
abbrev Str := List Char

namespace Cherryfly

/-! ## Generic string primitives (JS semantics) -/

/-- `listPre p s`: `s` starts with `p` (models `String.prototype.startsWith`
and is the matching primitive for `split`/`includes`). -/
def listPre : Str → Str → Bool
  | [], _ => true
  | _ :: _, [] => false
  | a :: as, b :: bs => a == b && listPre as bs

/-- `hasSub p s`: `p` occurs as a contiguous substring of `s`
(models `String.prototype.includes`). -/
def hasSub (p : Str) : Str → Bool
  | [] => listPre p []
  | c :: cs => listPre p (c :: cs) || hasSub p cs

/-- `splitOnSep sep s` models `s.split(sep)` for a non-empty string separator:
scan left to right, splitting at each leftmost non-overlapping occurrence. -/
def splitOnSep (sep : Str) : Str → List Str
  | [] => [[]]
  | c :: cs =>
    if listPre sep (c :: cs) then
      [] :: splitOnSep sep (List.drop (sep.length - 1) cs)
    else
      match splitOnSep sep cs with
      | [] => [[c]]
      | r :: rs => (c :: r) :: rs
  termination_by s => s.length
  decreasing_by
    · simp only [List.length_cons]
      have := List.length_drop (sep.length - 1) cs
      omega
    · simp

/-- `joinSep sep parts` models `parts.join(sep)`. -/
def joinSep (sep : Str) : List Str → Str
  | [] => []
  | [x] => x
  | x :: y :: xs => x ++ sep ++ joinSep sep (y :: xs)

/-- `startsWith pre s` models `s.startsWith(pre)`. -/
def startsWith (pre s : Str) : Bool := listPre pre s

/-- `endsWith suf s` models `s.endsWith(suf)`. -/
def endsWith (suf s : Str) : Bool := listPre suf.reverse s.reverse

theorem listPre_append (p t : Str) : listPre p (p ++ t) = true := by
  induction p with
  | nil => rfl
  | cons c cs ih => simp [listPre, ih]

theorem listPre_iff_append (p s : Str) :
    listPre p s = true ↔ ∃ t, s = p ++ t := by
  constructor
  · intro h
    induction p generalizing s with
    | nil => exact ⟨s, rfl⟩
    | cons c cs ih =>
      cases s with
      | nil => simp [listPre] at h
      | cons b bs =>
        simp only [listPre, Bool.and_eq_true, beq_iff_eq] at h
        obtain ⟨t, ht⟩ := ih bs h.2
        exact ⟨t, by simp [h.1, ht]⟩
  · rintro ⟨t, rfl⟩; exact listPre_append p t

theorem splitOnSep_ne_nil (sep s : Str) : splitOnSep sep s ≠ [] := by
  cases s with
  | nil => simp [splitOnSep]
  | cons c cs =>
    rw [splitOnSep]
    by_cases h : listPre sep (c :: cs) = true
    · simp [h]
    · simp only [h]
      cases hr : splitOnSep sep cs with
      | nil => simp
      | cons r rs => simp

/-- Splitting and re-joining with the same separator is the identity: this is
exactly why the decoder's `rest.join(FIELD_SEP)` recovers a value that itself
contains the separator. -/
theorem joinSep_splitOnSep (sep : Str) (hsep : sep ≠ []) (s : Str) :
    joinSep sep (splitOnSep sep s) = s := by
  suffices H : ∀ n, ∀ s : Str, s.length = n → joinSep sep (splitOnSep sep s) = s from
    H s.length s rfl
  intro n
  induction n using Nat.strong_induction_on with
  | _ n ih =>
  intro s hs
  cases s with
  | nil => simp [splitOnSep, joinSep]
  | cons c cs =>
    rw [splitOnSep]
    by_cases h : listPre sep (c :: cs) = true
    · simp only [h, if_true]
      obtain ⟨t, ht⟩ := (listPre_iff_append sep (c :: cs)).1 h
      have hdrop : List.drop (sep.length - 1) cs = t := by
        cases sep with
        | nil => exact absurd rfl hsep
        | cons a as =>
          simp only [List.cons_append] at ht
          injection ht with h1 h2
          simp [h2, List.drop_left']
      rw [hdrop]
      have hlt : t.length < n := by
        subst hs
        have hlen := congrArg List.length ht
        cases sep with
        | nil => exact absurd rfl hsep
        | cons a as =>
          simp only [List.length_cons, List.length_append] at hlen ⊢
          omega
      have hrec := ih t.length hlt t rfl
      cases hsp : splitOnSep sep t with
      | nil => exact absurd hsp (splitOnSep_ne_nil sep t)
      | cons r rs =>
        rw [hsp] at hrec
        simp only [joinSep]
        rw [hrec, ht]
        simp
    · simp only [h]
      have hlt : cs.length < n := by subst hs; simp
      have hrec := ih cs.length hlt cs rfl
      cases hsp : splitOnSep sep cs with
      | nil => exact absurd hsp (splitOnSep_ne_nil sep cs)
      | cons r rs =>
        rw [hsp] at hrec
        simp only [joinSep]
        cases rs with
        | nil => simp only [joinSep] at hrec ⊢; rw [hrec]
        | cons r2 rs2 =>
          simp only [joinSep] at hrec ⊢
          simp only [List.cons_append, List.append_assoc] at hrec ⊢
          rw [hrec]

/-- If no occurrence of `sep` starts strictly inside `part`, the split of
`part ++ sep ++ rest` peels off exactly `part`. -/
theorem splitOnSep_boundary (sep part rest : Str) (hsep : sep ≠ [])
    (h : ∀ k, k < part.length →
      listPre sep (List.drop k (part ++ sep ++ rest)) = false) :
    splitOnSep sep (part ++ sep ++ rest) = part :: splitOnSep sep rest := by
  induction part with
  | nil =>
    simp only [List.nil_append]
    rw [splitOnSep.eq_def]
    cases hs : sep ++ rest with
    | nil =>
      cases sep with
      | nil => exact absurd rfl hsep
      | cons a as => simp at hs
    | cons c cs =>
      have hpre : listPre sep (c :: cs) = true := by rw [← hs]; exact listPre_append sep rest
      simp only [hpre, if_true]
      have hdrop : List.drop (sep.length - 1) cs = rest := by
        cases sep with
        | nil => exact absurd rfl hsep
        | cons a as =>
          simp only [List.cons_append] at hs
          injection hs with h1 h2
          simp [← h2, List.drop_left']
      rw [hdrop]
  | cons c cs ih =>
    have h0 := h 0 (by simp)
    simp only [List.drop_zero] at h0
    rw [List.cons_append, List.cons_append]
    rw [splitOnSep.eq_def]
    simp only [List.cons_append] at h0
    simp only [h0]
    have hrec : splitOnSep sep (cs ++ sep ++ rest) = cs :: splitOnSep sep rest := by
      apply ih
      intro k hk
      have := h (k + 1) (by simp; omega)
      simpa using this
    rw [hrec]
    simp only [Bool.false_eq_true, if_false]

theorem hasSub_of_listPre (p s : Str) (h : listPre p s = true) : hasSub p s = true := by
  cases s with
  | nil => simpa [hasSub]
  | cons c cs => simp [hasSub, h]

theorem hasSub_append_of_hasSub (p a b : Str) (h : hasSub p b = true) :
    hasSub p (a ++ b) = true := by
  induction a with
  | nil => simpa
  | cons c cs ih => simp [hasSub, ih]

/-- Any string containing the separator as a designated segment `includes` it. -/
theorem hasSub_append_self (p a b : Str) : hasSub p (a ++ p ++ b) = true := by
  rw [List.append_assoc]
  apply hasSub_append_of_hasSub
  apply hasSub_of_listPre
  exact listPre_append p b

/-- A pattern whose first character does not occur in `a` has no occurrence
starting inside `a`. -/
theorem hasSub_append_charFree (c0 : Char) (p' a b : Str)
    (ha : a.all (· ≠ c0) = true) :
    hasSub (c0 :: p') (a ++ b) = hasSub (c0 :: p') b := by
  induction a with
  | nil => rfl
  | cons c cs ih =>
    simp only [List.all_cons, Bool.and_eq_true, decide_eq_true_eq] at ha
    have hne : (c0 == c) = false := by
      simp only [beq_eq_false_iff_ne, ne_eq]
      exact fun h => ha.1 h.symm
    simp only [List.cons_append, hasSub, listPre, hne, Bool.false_and, Bool.false_or]
    exact ih ha.2

/-- Splitting peels off a part whenever the separator's first character does
not occur in the part (the case of the `KEY:::value` field split: keys never
contain a colon). -/
theorem splitOnSep_boundary_charFree (c0 : Char) (sep' part rest : Str)
    (hpart : part.all (· ≠ c0) = true) :
    splitOnSep (c0 :: sep') (part ++ (c0 :: sep') ++ rest) =
      part :: splitOnSep (c0 :: sep') rest := by
  induction part with
  | nil =>
    exact splitOnSep_boundary (c0 :: sep') [] rest (by simp) (by intro k hk; simp at hk)
  | cons c cs ih =>
    simp only [List.all_cons, Bool.and_eq_true, decide_eq_true_eq] at hpart
    have hne : (c0 == c) = false := by
      simp only [beq_eq_false_iff_ne, ne_eq]
      exact fun h => hpart.1 h.symm
    have hpre : listPre (c0 :: sep') (c :: (cs ++ (c0 :: sep') ++ rest)) = false := by
      simp [listPre, hne]
    rw [List.cons_append, List.cons_append, splitOnSep.eq_def]
    simp only [List.cons_append] at hpre
    simp only [hpre, Bool.false_eq_true, if_false]
    rw [ih hpart.2]

theorem listPre_of_listPre_append (p q s : Str) (h : listPre (p ++ q) s = true) :
    listPre p s = true := by
  induction p generalizing s with
  | nil => rfl
  | cons a as ih =>
    cases s with
    | nil => simp [listPre] at h
    | cons b bs =>
      simp only [List.cons_append, listPre, Bool.and_eq_true] at h ⊢
      exact ⟨h.1, ih bs h.2⟩

/-! ## The metadata codec's delimiters (src/unnamed/part_003, db layer) -/

/-- `META_SEP = "|||META|||"`, the record separator between packed tuples. -/
def META_SEP : Str := "|||META|||".toList

/-- `FIELD_SEP = ":::"`, the key/value separator inside a tuple. -/
def FIELD_SEP : Str := ":::".toList

/-- Three consecutive pipes: any occurrence of `META_SEP` starts with this. -/
def pipe3 : Str := "|||".toList

theorem META_SEP_eq : META_SEP = ['|', '|', '|', 'M', 'E', 'T', 'A', '|', '|', '|'] := rfl

theorem FIELD_SEP_eq : FIELD_SEP = [':', ':', ':'] := rfl

theorem pipe3_eq : pipe3 = ['|', '|', '|'] := rfl

/-- Splitting on `META_SEP` peels a leading part off cleanly provided the part
contains no three consecutive pipes: there is then no earlier or overlapping
occurrence of the record separator. -/
theorem splitOnSep_metaSep_boundary (part rest : Str)
    (hp : hasSub pipe3 part = false) :
    splitOnSep META_SEP (part ++ META_SEP ++ rest) =
      part :: splitOnSep META_SEP rest := by
  induction part with
  | nil =>
    exact splitOnSep_boundary META_SEP [] rest (by rw [META_SEP_eq]; simp)
      (by intro k hk; simp at hk)
  | cons c cs ih =>
    simp only [hasSub, Bool.or_eq_false_iff] at hp
    obtain ⟨hnotpre, hsub⟩ := hp
    have hpre : listPre META_SEP (c :: (cs ++ META_SEP ++ rest)) = false := by
      rw [META_SEP_eq] at *
      rw [pipe3_eq] at hnotpre
      by_cases hc : ('|' == c) = true
      · cases cs with
        | nil => simp [listPre, hc]
        | cons d ds =>
          by_cases hd : ('|' == d) = true
          · cases ds with
            | nil => simp [listPre, hc, hd]
            | cons e es =>
              have he : ('|' == e) = false := by
                simp only [listPre, hc, hd, Bool.true_and] at hnotpre
                simpa using hnotpre
              simp [listPre, hc, hd, he]
          · have hd' : ('|' == d) = false := by simpa using hd
            simp [listPre, hc, hd']
      · have hc' : ('|' == c) = false := by simpa using hc
        simp [listPre, hc']
    rw [List.cons_append, List.cons_append, splitOnSep.eq_def]
    simp only [List.cons_append] at hpre
    simp only [hpre, Bool.false_eq_true, if_false]
    rw [ih hsub]

/-! ## JS numeric string primitives -/

/-- The decimal digit character for `d < 10` (used by number→string interpolation). -/
def digitChar : Nat → Char
  | 0 => '0' | 1 => '1' | 2 => '2' | 3 => '3' | 4 => '4'
  | 5 => '5' | 6 => '6' | 7 => '7' | 8 => '8' | _ => '9'

/-- Decimal digits of a natural number, most significant first. -/
def natDigits (m : Nat) : List Nat :=
  if h : m < 10 then [m] else natDigits (m / 10) ++ [m % 10]
  termination_by m
  decreasing_by omega

/-- `natToStr m` is the decimal rendering of `m` (JS `${n}` for a whole number). -/
def natToStr (m : Nat) : Str := (natDigits m).map digitChar

/-- `intToStr n` models JS template interpolation `${n}` for an integer. -/
def intToStr (n : Int) : Str :=
  if n < 0 then '-' :: natToStr (-n).toNat else natToStr n.toNat

/-- Digit value of a character, `none` for non-digits. -/
def digVal (c : Char) : Option Nat :=
  if '0' ≤ c ∧ c ≤ '9' then some (c.toNat - 48) else none

/-- Leading run of decimal digits and the remaining characters. -/
def takeDigits : Str → List Nat × Str
  | [] => ([], [])
  | c :: cs =>
    match digVal c with
    | some d => let p := takeDigits cs; (d :: p.1, p.2)
    | none => ([], c :: cs)

/-- Value of a digit list, most significant first. -/
def digitsVal (ds : List Nat) : Nat := ds.foldl (fun a d => a * 10 + d) 0

/-- `parseIntJS` models `parseInt(s)` (radix 10, no leading whitespace in any
string this code base ever parses): optional sign, then leading digits;
no digits means `NaN`, modelled as `none`. -/
def parseIntJS (s : Str) : Option Int :=
  match s with
  | '-' :: cs =>
    match takeDigits cs with
    | ([], _) => none
    | (ds, _) => some (-(digitsVal ds : Int))
  | '+' :: cs =>
    match takeDigits cs with
    | ([], _) => none
    | (ds, _) => some (digitsVal ds)
  | _ =>
    match takeDigits s with
    | ([], _) => none
    | (ds, _) => some (digitsVal ds)

theorem natDigits_lt (m : Nat) : ∀ d ∈ natDigits m, d < 10 := by
  induction m using Nat.strong_induction_on with
  | _ m ih =>
  rw [natDigits]
  by_cases h : m < 10
  · rw [dif_pos h]; intro d hd; simp at hd; omega
  · simp only [h, dif_neg, not_false_iff]
    intro d hd
    rcases List.mem_append.1 hd with h1 | h2
    · exact ih (m / 10) (by omega) d h1
    · simp at h2; omega

theorem natDigits_ne_nil (m : Nat) : natDigits m ≠ [] := by
  rw [natDigits]
  by_cases h : m < 10 <;> simp [h]

theorem digitsVal_natDigits (m : Nat) : digitsVal (natDigits m) = m := by
  induction m using Nat.strong_induction_on with
  | _ m ih =>
  rw [natDigits]
  by_cases h : m < 10
  · simp [h, digitsVal]
  · simp only [h, dif_neg, not_false_iff]
    have := ih (m / 10) (by omega)
    simp only [digitsVal, List.foldl_append, List.foldl_cons, List.foldl_nil] at this ⊢
    rw [this]
    omega

theorem digVal_digitChar (d : Nat) (h : d < 10) : digVal (digitChar d) = some d := by
  interval_cases d <;> decide

theorem takeDigits_map_digitChar (ds : List Nat) (h : ∀ d ∈ ds, d < 10) :
    takeDigits (ds.map digitChar) = (ds, []) := by
  induction ds with
  | nil => rfl
  | cons d rest ih =>
    simp only [List.map_cons, takeDigits]
    rw [digVal_digitChar d (h d (by simp))]
    simp [ih (fun x hx => h x (by simp [hx]))]

theorem takeDigits_natToStr (m : Nat) : takeDigits (natToStr m) = (natDigits m, []) :=
  takeDigits_map_digitChar (natDigits m) (natDigits_lt m)

theorem natToStr_head_digit (m : Nat) :
    ∃ d rest, natToStr m = digitChar d :: rest ∧ d < 10 := by
  unfold natToStr
  cases hd : natDigits m with
  | nil => exact absurd hd (natDigits_ne_nil m)
  | cons d rest =>
    exact ⟨d, rest.map digitChar, by simp, natDigits_lt m d (by rw [hd]; simp)⟩

theorem parseIntJS_natToStr (m : Nat) : parseIntJS (natToStr m) = some m := by
  obtain ⟨d, rest, heq, hlt⟩ := natToStr_head_digit m
  have hne1 : digitChar d ≠ '-' := by interval_cases d <;> decide
  have hne2 : digitChar d ≠ '+' := by interval_cases d <;> decide
  have ht : takeDigits (digitChar d :: rest) = (natDigits m, []) := by
    rw [← heq]; exact takeDigits_natToStr m
  rw [parseIntJS.eq_def, heq]
  split
  · rename_i cs heq2
    injection heq2 with h1 h2
    exact absurd h1 hne1
  · rename_i cs heq2
    injection heq2 with h1 h2
    exact absurd h1 hne2
  · rw [ht]
    have := natDigits_ne_nil m
    cases hnd : natDigits m with
    | nil => exact absurd hnd this
    | cons a as =>
      simp only []
      rw [← hnd, digitsVal_natDigits m]
      simp

/-- Rendering an integer and parsing it back with `parseInt` is the identity:
the `YEAR`/`MATCH` fields survive the codec. -/
theorem parseIntJS_intToStr (n : Int) : parseIntJS (intToStr n) = some n := by
  unfold intToStr
  by_cases h : n < 0
  · simp only [h, if_true]
    rw [parseIntJS.eq_def]
    simp only []
    rw [takeDigits_natToStr]
    have := natDigits_ne_nil (-n).toNat
    cases hnd : natDigits (-n).toNat with
    | nil => exact absurd hnd this
    | cons a as =>
      simp only []
      rw [← hnd, digitsVal_natDigits]
      rw [Int.toNat_of_nonneg (by omega)]
      simp
  · simp only [h, if_false]
    rw [parseIntJS_natToStr]
    simp [Int.toNat_of_nonneg (by omega : (0:Int) ≤ n)]

/-! ## JSON string-array codec

The encoder uses `JSON.stringify` on arrays of strings (`genre`, page URLs);
the decoder uses `JSON.parse` with a try/catch fallback.  The model below
implements the exact grammar `JSON.stringify` emits for arrays of strings that
contain no characters requiring escaping (no `"`, no `\`, no control
characters) — every list this code base serializes is checked against that
character condition.  `JSON.parse` on any other input is modelled as failure,
which the decoder turns into its declared fallback value. -/

/-- A string needing no JSON escaping. -/
def jsonPlain (s : Str) : Bool :=
  s.all fun c => (c != '"') && (c != '\\') && (31 < c.toNat)

/-- `jsonQuote s` is `"s"`. -/
def jsonQuote (s : Str) : Str := '"' :: s ++ ['"']

/-- `stringifyStrList l` models `JSON.stringify(l)` for an array of
escape-free strings: `["a","b"]`, no whitespace. -/
def stringifyStrList (l : List Str) : Str :=
  '[' :: joinSep [','] (l.map jsonQuote) ++ [']']

/-- Scan a JSON string body up to the closing quote (escape sequences are not
interpreted; inputs come from `stringifyStrList` on escape-free strings). -/
def scanStringBody : Str → Option (Str × Str)
  | [] => none
  | '"' :: cs => some ([], cs)
  | c :: cs => (scanStringBody cs).map (fun p => (c :: p.1, p.2))

theorem scanStringBody_length (cs : Str) (b r : Str)
    (h : scanStringBody cs = some (b, r)) : r.length < cs.length := by
  induction cs generalizing b r with
  | nil => simp [scanStringBody] at h
  | cons c cs ih =>
    rw [scanStringBody.eq_def] at h
    split at h
    · simp at h
    · rename_i cs' heq
      injection heq with e1 e2
      subst e2
      simp only [Option.some.injEq, Prod.mk.injEq] at h
      simp [← h.2]
    · rename_i c' cs' hne heq
      injection heq with e1 e2
      subst e1; subst e2
      simp only [Option.map_eq_some'] at h
      obtain ⟨⟨b', r'⟩, hb, hp⟩ := h
      have := ih b' r' hb
      simp only [Prod.mk.injEq] at hp
      rw [← hp.2]
      simp
      omega

/-- Parse the element list of a JSON string array, after the opening `[`,
requiring full consumption through the closing `]`. -/
def parseElems : Str → Option (List Str)
  | '"' :: cs =>
    match h : scanStringBody cs with
    | none => none
    | some (b, r) =>
      match r with
      | ']' :: r2 => if r2 = [] then some [b] else none
      | ',' :: r2 => (parseElems r2).map (b :: ·)
      | _ => none
  | _ => none
  termination_by s => s.length
  decreasing_by
    have := scanStringBody_length cs b (',' :: r2) h
    simp at this ⊢
    omega

/-- `parseStrList s` models `JSON.parse(s)` restricted to arrays of
escape-free strings; `none` is a parse failure. -/
def parseStrList (s : Str) : Option (List Str) :=
  match s with
  | '[' :: ']' :: rest => if rest = [] then some [] else none
  | '[' :: rest => parseElems rest
  | _ => none

theorem scanStringBody_quote (x r : Str) (hx : jsonPlain x = true) :
    scanStringBody (x ++ '"' :: r) = some (x, r) := by
  induction x with
  | nil => rfl
  | cons c cs ih =>
    simp only [jsonPlain, List.all_cons, Bool.and_eq_true] at hx
    have hc : c ≠ '"' := by
      have := hx.1
      simp only [Bool.and_eq_true, bne_iff_ne, ne_eq] at this
      exact this.1.1
    rw [List.cons_append, scanStringBody.eq_def]
    split
    · rename_i heq; simp at heq
    · rename_i heq
      injection heq with e1 e2
      exact absurd e1 hc
    · rename_i c' cs' hne heq
      injection heq with e1 e2
      subst e1
      rw [← e2, ih (by simpa [jsonPlain] using hx.2)]
      rfl

theorem parseElems_join (l : List Str) (hl : l ≠ []) (h : ∀ x ∈ l, jsonPlain x = true) :
    parseElems (joinSep [','] (l.map jsonQuote) ++ [']']) = some l := by
  induction l with
  | nil => exact absurd rfl hl
  | cons x xs ih =>
    cases xs with
    | nil =>
      have hx := h x (by simp)
      show parseElems (jsonQuote x ++ [']']) = some [x]
      have hshape : jsonQuote x ++ [']'] = '"' :: (x ++ '"' :: [']']) := by
        simp [jsonQuote]
      rw [hshape, parseElems.eq_def]
      split
      · rename_i cs hcs
        injection hcs with e1 e2
        subst e2
        split
        · rename_i heq
          rw [scanStringBody_quote x [']'] hx] at heq
          simp at heq
        · rename_i b r heq
          rw [scanStringBody_quote x [']'] hx] at heq
          simp only [Option.some.injEq, Prod.mk.injEq] at heq
          obtain ⟨hb, hr⟩ := heq
          subst hb; subst hr
          simp
      · rename_i hne
        exact (hne (x ++ ['"', ']']) rfl).elim
    | cons y ys =>
      have hx := h x (by simp)
      have hshape : joinSep [','] ((x :: y :: ys).map jsonQuote) ++ [']'] =
          '"' :: (x ++ '"' :: (',' :: (joinSep [','] ((y :: ys).map jsonQuote) ++ [']']))) := by
        simp only [List.map_cons, joinSep, jsonQuote]
        simp
      rw [hshape, parseElems.eq_def]
      split
      · rename_i cs hcs
        injection hcs with e1 e2
        subst e2
        split
        · rename_i heq
          rw [scanStringBody_quote x _ hx] at heq
          simp at heq
        · rename_i b r heq
          rw [scanStringBody_quote x _ hx] at heq
          simp only [Option.some.injEq, Prod.mk.injEq] at heq
          obtain ⟨hb, hr⟩ := heq
          subst hb; subst hr
          have hrec := ih (by simp) (fun z hz => h z (by simp [hz]))
          simp only [hrec]
          rfl
      · rename_i hne
        exact (hne (x ++ '"' :: (',' :: (joinSep [','] ((y :: ys).map jsonQuote) ++ [']']))) rfl).elim

/-- `JSON.parse ∘ JSON.stringify` is the identity on arrays of escape-free
strings. -/
theorem parseStrList_stringifyStrList (l : List Str) (h : ∀ x ∈ l, jsonPlain x = true) :
    parseStrList (stringifyStrList l) = some l := by
  cases l with
  | nil => rfl
  | cons x xs =>
    have hj := parseElems_join (x :: xs) (by simp) h
    obtain ⟨t, ht⟩ : ∃ t, joinSep [','] ((x :: xs).map jsonQuote) ++ [']'] = '"' :: t := by
      cases xs with
      | nil => exact ⟨x ++ '"' :: [']'], by simp [joinSep, jsonQuote]⟩
      | cons y ys =>
        exact ⟨x ++ ['"'] ++ [','] ++ (joinSep [','] ((y :: ys).map jsonQuote) ++ [']']),
          by simp [joinSep, jsonQuote]⟩
    have hs : stringifyStrList (x :: xs) = '[' :: '"' :: t := by
      simp only [stringifyStrList, List.cons_append]
      rw [ht]
    rw [hs, parseStrList.eq_def]
    split
    · rename_i rest heq
      injection heq with e1 e2
      injection e2 with e3 e4
      exact absurd e3 (by decide)
    · rename_i rest heq
      injection heq with e1 e2
      rw [← e2, ← ht]
      exact hj
    · rename_i hne1 hne2
      exact (hne2 ('"' :: t) rfl).elim

/-! ## Data model (src/types.ts, `Movie` interface)

`createdAt` is an ISO date string in the source, used only through
`new Date(s).getTime()` and as an opaque row column; it is modelled directly
as the epoch-milliseconds integer (the ISO rendering is a bijection on the
range this app uses, and the code never inspects the string itself except to
derive the date, which we compute from the integer). -/

structure Movie where
  id : Str
  title : Str
  description : Str
  searchContext : Str
  thumbnailUrl : Str
  videoUrl : Str
  comicPages : List Str
  matchScore : Int
  year : Int
  duration : Str
  genre : List Str
  createdAt : Int
  mediaType : Str
  folderName : Option Str
  aiStatus : Str
  deriving DecidableEq, Repr

/-- A row of the `movies` table as written by this code: the store guarantees
only `id`, `title`, `description` (free text) and `created_at`. -/
structure Row where
  id : Str
  title : Str
  description : Str
  created_at : Int
  deriving DecidableEq, Repr

/-- The main media file handed to `saveMovieToStorage`. -/
structure FileRef where
  name : Str
  deriving DecidableEq, Repr

/-! ## Asset publisher (Supabase storage, modelled as a pure oracle) -/

/-- `path.replace(/[^a-zA-Z0-9\/._-]/g, '_')` in `uploadToStorage`. -/
def sanitizePath (p : Str) : Str :=
  p.map fun c =>
    if c.isAlphanum || c == '/' || c == '.' || c == '_' || c == '-' then c else '_'

/-- `supabase.storage.from('media').getPublicUrl(path)`: a fixed public base
URL followed by the path. -/
def getPublicUrl (path : Str) : Str :=
  "https://xyz.supabase.co/storage/v1/object/public/media/".toList ++ path

/-- `uploadToStorage` (upload always succeeds in this model and returns the
public URL of the sanitized path). -/
def uploadToStorage (path : Str) : Str := getPublicUrl (sanitizePath path)

/-- Nondeterministic inputs of one `saveMovieToStorage` run:
`rand i` is the value of `Math.random().toString(36).substring(2, 9)`
drawn for the `i`-th comic page. -/
structure SaveEnv where
  rand : Nat → Str

/-! ## `saveMovieToStorage` (src/unnamed/part_003) -/

/-- The per-page upload loop of step 1.1 of `saveMovieToStorage`, producing
`finalComicPages`: a raw-base64 page gets a `data:` prefix, `data:` pages are
uploaded under `{id}/page_{uniqueId}_{i}.png`, anything else passes through. -/
def uploadComicPages (env : SaveEnv) (movieId : Str) : Nat → List Str → List Str
  | _, [] => []
  | i, page :: rest =>
    let page1 :=
      if !startsWith "data:".toList page && !startsWith "http".toList page &&
          decide (100 < page.length) then
        "data:image/jpeg;base64,".toList ++ page
      else page
    let out :=
      if startsWith "data:".toList page1 then
        uploadToStorage
          (movieId ++ "/page_".toList ++ env.rand i ++ ['_'] ++ natToStr i ++ ".png".toList)
      else page1
    out :: uploadComicPages env movieId (i + 1) rest

/-- `Array.from(new Set(xs))`: stable deduplication keeping first occurrences. -/
def dedup : List Str → List Str
  | [] => []
  | x :: xs => x :: dedup (xs.filter fun y => y ≠ x)
  termination_by l => l.length
  decreasing_by
    simp only [List.length_cons]
    exact Nat.lt_succ_of_le (List.length_filter_le _ _)

/-- One `KEY:::value` tuple of the packed metadata. -/
def mkTuple (key : Str) (v : Str) : Str := key ++ FIELD_SEP ++ v

/-- The `packedMeta` string of `saveMovieToStorage`, given the final asset
URLs computed by the upload steps. -/
def packedMeta (movie : Movie) (mediaUrl thumbnailUrl : Str) (uniquePages : List Str) : Str :=
  joinSep META_SEP
    [ mkTuple "TYPE".toList movie.mediaType,
      mkTuple "STATUS".toList movie.aiStatus,
      mkTuple "SEARCH".toList movie.searchContext,
      mkTuple "FOLDER".toList (movie.folderName.getD []),
      mkTuple "VIDEO".toList mediaUrl,
      mkTuple "THUMB".toList thumbnailUrl,
      mkTuple "YEAR".toList (intToStr movie.year),
      mkTuple "MATCH".toList (intToStr movie.matchScore),
      mkTuple "GENRE".toList (stringifyStrList movie.genre),
      mkTuple "COMIC".toList (stringifyStrList uniquePages),
      mkTuple "DESC".toList movie.description ]

/-- `saveMovieToStorage(movie, mainFile)`: uploads the thumbnail when it is a
`data:` URI, uploads the main file when given, uploads/deduplicates comic
pages, packs all metadata into the description column, upserts the row, and
returns the movie with the real URLs.  In this model the storage and DB
writes always succeed; the produced row is returned alongside the movie. -/
def saveMovieToStorage (env : SaveEnv) (movie : Movie) (mainFile : Option FileRef) :
    Movie × Row :=
  let thumbnailUrl :=
    if !movie.thumbnailUrl.isEmpty && startsWith "data:".toList movie.thumbnailUrl then
      uploadToStorage (movie.id ++ "/thumb.png".toList)
    else movie.thumbnailUrl
  let mediaUrl :=
    match mainFile with
    | some f =>
      let ext :=
        let last := (splitOnSep ['.'] f.name).getLastD []
        if last.isEmpty then "file".toList else last
      uploadToStorage (movie.id ++ "/main.".toList ++ ext)
    | none => movie.videoUrl
  let finalComicPages := uploadComicPages env movie.id 0 movie.comicPages
  let uniquePages := dedup finalComicPages
  ( { movie with
      thumbnailUrl := thumbnailUrl,
      videoUrl := mediaUrl,
      comicPages := uniquePages },
    { id := movie.id,
      title := movie.title,
      description := packedMeta movie mediaUrl thumbnailUrl uniquePages,
      created_at := movie.createdAt } )

/-! ## `getMoviesFromStorage` decoding (src/unnamed/part_003) -/

/-- `const [key, ...rest] = part.split(FIELD_SEP); val = rest.join(FIELD_SEP)`:
split a tuple only at the first occurrence of the field separator. -/
def parseTuple (part : Str) : Str × Str :=
  match splitOnSep FIELD_SEP part with
  | [] => ([], [])
  | k :: rest => (k, joinSep FIELD_SEP rest)

/-- The `meta` record accumulated by the decoder's `forEach`: tuples with an
empty key are skipped and later tuples overwrite earlier ones. -/
def metaPairs (raw : Str) : List (Str × Str) :=
  if hasSub META_SEP raw then
    ((splitOnSep META_SEP raw).map parseTuple).filter (fun p => !p.1.isEmpty)
  else []

/-- `meta[key]` lookup: the value of the last tuple with this key. -/
def metaOf (raw : Str) (key : Str) : Option Str :=
  (((metaPairs raw).filter (fun p => p.1 = key)).getLast?).map Prod.snd

/-- `a || b` for a possibly-undefined string: `undefined` and `''` both fall
back. -/
def jsOr (o : Option Str) (fb : Str) : Str :=
  match o with
  | none => fb
  | some s => if s.isEmpty then fb else s

/-- The decoder's `parseNumber`: `parseInt(str || '')`, falling back when the
result is `NaN`. -/
def parseNumber (o : Option Str) (fb : Int) : Int :=
  match parseIntJS (o.getD []) with
  | some n => n
  | none => fb

/-- The decoder's `parseJSON(str, fallback)` for list-valued fields: empty or
missing input and parse failures produce the fallback.  (`JSON.parse`
succeeding with a non-array value is also modelled as a failure; the rows this
code writes always store arrays there.) -/
def parseJSONList (o : Option Str) (fb : List Str) : List Str :=
  match o with
  | none => fb
  | some s => if s.isEmpty then fb else (parseStrList s).getD fb

/-- `normalize = s.toLowerCase().replace(/[-\s]/g, '')`. -/
def normalizeTitle (s : Str) : Str :=
  (s.map Char.toLower).filter fun c =>
    !(c == '-' || c == ' ' || c == '\t' || c == '\n' || c == '\r' ||
      c.toNat == 11 || c.toNat == 12)

/-- The decoder's hardcoded repair list of comic titles. -/
def comicTitles : List Str :=
  [ "Vision Life".toList, "God of tomorrow".toList, "verdant breach".toList,
    "last scion:the convergence".toList, "the after image".toList,
    "mindshift:1984".toList, "element zero".toList,
    "the convergence of kings".toList ]

/-- The decoder's hardcoded repair list of photo titles. -/
def photoTitles : List Str :=
  [ "vandal hearts scribble '26".toList, "vandal hearts scribble 26".toList ]

/-- `str.replace(pat, rep)` for plain strings: replace the first occurrence. -/
def replaceFirst (pat rep : Str) : Str → Str
  | [] => []
  | c :: cs =>
    if listPre pat (c :: cs) then rep ++ List.drop (pat.length - 1) cs
    else c :: replaceFirst pat rep cs

/-- The four fabricated page URLs the decoder invents for a `COMIC` row whose
packed page list is empty. -/
def fabricatedPages (rowId : Str) : List Str :=
  let u := getPublicUrl (rowId ++ "/page_0.png".toList)
  [ u,
    replaceFirst "page_0.png".toList "page_1.png".toList u,
    replaceFirst "page_0.png".toList "page_2.png".toList u,
    replaceFirst "page_0.png".toList "page_3.png".toList u ]

/-- The per-row decoding of `getMoviesFromStorage`.  `nowYear` stands for
`new Date().getFullYear()`, the fallback when no year can be parsed. -/
def decodeMovieRow (nowYear : Int) (row : Row) : Movie :=
  let raw := row.description
  let comicPages0 := parseJSONList (metaOf raw "COMIC".toList) []
  let mediaType0 := jsOr (metaOf raw "TYPE".toList) "VIDEO".toList
  let mediaType1 :=
    if !comicPages0.isEmpty && mediaType0 ≠ "PHOTO".toList then "COMIC".toList
    else mediaType0
  let normTitle := normalizeTitle row.title
  let mediaType2 :=
    if comicTitles.any (fun t => hasSub (normalizeTitle t) normTitle) then "COMIC".toList
    else mediaType1
  let videoUrl := (metaOf raw "VIDEO".toList).getD []
  let thumbnailUrl := (metaOf raw "THUMB".toList).getD []
  let mediaType3 :=
    if photoTitles.any (fun t => hasSub (normalizeTitle t) normTitle) then "PHOTO".toList
    else mediaType2
  let comicPages :=
    if mediaType3 = "COMIC".toList && comicPages0.isEmpty then fabricatedPages row.id
    else comicPages0
  { id := row.id,
    title := row.title,
    description := jsOr (metaOf raw "DESC".toList) raw,
    searchContext := (metaOf raw "SEARCH".toList).getD [],
    thumbnailUrl := thumbnailUrl,
    videoUrl := videoUrl,
    matchScore := parseNumber (metaOf raw "MATCH".toList) 0,
    year := parseNumber (metaOf raw "YEAR".toList) nowYear,
    duration := jsOr (metaOf raw "DUR".toList)
      (if mediaType3 = "COMIC".toList then "Comic Issue".toList else "Unknown".toList),
    genre := parseJSONList (metaOf raw "GENRE".toList) [],
    comicPages := comicPages,
    createdAt := row.created_at,
    mediaType := mediaType3,
    folderName :=
      (let f := (metaOf raw "FOLDER".toList).getD []
       if f.isEmpty then none else some f),
    aiStatus := jsOr (metaOf raw "STATUS".toList) "COMPLETED".toList }

/-- `getMoviesFromStorage` over an already-fetched list of rows (the query
orders by `created_at` descending; ordering is the store's business). -/
def getMoviesFromStorage (nowYear : Int) (rows : List Row) : List Movie :=
  rows.map (decodeMovieRow nowYear)

/-! ## `updateMovieInStorage` (src/unnamed/part_003) -/

/-- The decode performed inside `updateMovieInStorage` (it unpacks only this
movie's metadata and applies none of the read-path inference or repair
heuristics).  `parseInt(meta.MATCH || '0')` and `parseInt(meta.YEAR || '2024')`
have no `NaN` guard in the source; a `NaN` (only reachable from rows not
written by this encoder) is modelled as the numeric fallback. -/
def decodeRowForUpdate (row : Row) : Movie :=
  let raw := row.description
  { id := row.id,
    title := row.title,
    description := jsOr (metaOf raw "DESC".toList) raw,
    searchContext := (metaOf raw "SEARCH".toList).getD [],
    thumbnailUrl := (metaOf raw "THUMB".toList).getD [],
    videoUrl := (metaOf raw "VIDEO".toList).getD [],
    matchScore := (parseIntJS (jsOr (metaOf raw "MATCH".toList) "0".toList)).getD 0,
    year := (parseIntJS (jsOr (metaOf raw "YEAR".toList) "2024".toList)).getD 2024,
    duration := jsOr (metaOf raw "DUR".toList) "Unknown".toList,
    genre := parseJSONList (metaOf raw "GENRE".toList) [],
    comicPages := parseJSONList (metaOf raw "COMIC".toList) [],
    createdAt := row.created_at,
    mediaType := jsOr (metaOf raw "TYPE".toList) "VIDEO".toList,
    folderName :=
      (let f := (metaOf raw "FOLDER".toList).getD []
       if f.isEmpty then none else some f),
    aiStatus := jsOr (metaOf raw "STATUS".toList) "COMPLETED".toList }

/-- A `Partial<Movie>` update object: `none` means the key is absent.
`folderName`'s inner option mirrors the source, where the edit path may set
`folderName: undefined` explicitly to clear a folder. -/
structure MovieUpdates where
  title : Option Str := none
  description : Option Str := none
  searchContext : Option Str := none
  thumbnailUrl : Option Str := none
  videoUrl : Option Str := none
  comicPages : Option (List Str) := none
  matchScore : Option Int := none
  year : Option Int := none
  duration : Option Str := none
  genre : Option (List Str) := none
  createdAt : Option Int := none
  mediaType : Option Str := none
  folderName : Option (Option Str) := none
  aiStatus : Option Str := none

/-- `{ ...currentMovie, ...updates }`. -/
def applyUpdates (m : Movie) (u : MovieUpdates) : Movie :=
  { id := m.id,
    title := u.title.getD m.title,
    description := u.description.getD m.description,
    searchContext := u.searchContext.getD m.searchContext,
    thumbnailUrl := u.thumbnailUrl.getD m.thumbnailUrl,
    videoUrl := u.videoUrl.getD m.videoUrl,
    comicPages := u.comicPages.getD m.comicPages,
    matchScore := u.matchScore.getD m.matchScore,
    year := u.year.getD m.year,
    duration := u.duration.getD m.duration,
    genre := u.genre.getD m.genre,
    createdAt := u.createdAt.getD m.createdAt,
    mediaType := u.mediaType.getD m.mediaType,
    folderName := u.folderName.getD m.folderName,
    aiStatus := u.aiStatus.getD m.aiStatus }

/-- `updateMovieInStorage(id, updates)` applied to the fetched row: decode the
single row, merge the partial update, and re-save through the same packing
logic (`saveMovieToStorage` with no main file). -/
def updateMovieInStorage (env : SaveEnv) (row : Row) (u : MovieUpdates) : Movie × Row :=
  saveMovieToStorage env (applyUpdates (decodeRowForUpdate row) u) none

/-! ## Codec lemmas: decoding a freshly packed row -/

theorem hasSub_mono_front (p q s : Str) (h : hasSub (p ++ q) s = true) :
    hasSub p s = true := by
  induction s with
  | nil =>
    simp only [hasSub] at h ⊢
    exact listPre_of_listPre_append p q [] h
  | cons c cs ih =>
    simp only [hasSub, Bool.or_eq_true] at h ⊢
    rcases h with h | h
    · exact Or.inl (listPre_of_listPre_append p q _ h)
    · exact Or.inr (ih h)

theorem splitOnSep_eq_single (sep s : Str) (h : hasSub sep s = false) :
    splitOnSep sep s = [s] := by
  induction s with
  | nil => simp [splitOnSep]
  | cons c cs ih =>
    simp only [hasSub, Bool.or_eq_false_iff] at h
    rw [splitOnSep]
    simp only [h.1, Bool.false_eq_true, if_false]
    rw [ih h.2]

/-- A `KEY:::value` tuple has no three consecutive pipes when the value has
none (the key and the field separator never contain a pipe). -/
theorem mkTuple_pipe3_free (key v : Str) (hk : key.all (· ≠ '|') = true)
    (hv : hasSub pipe3 v = false) : hasSub pipe3 (mkTuple key v) = false := by
  have hkf : (key ++ FIELD_SEP).all (· ≠ '|') = true := by
    rw [List.all_append, hk]
    decide
  have h2 := hasSub_append_charFree '|' ['|', '|'] (key ++ FIELD_SEP) v hkf
  show hasSub pipe3 (key ++ FIELD_SEP ++ v) = false
  rw [pipe3_eq]
  rw [List.append_assoc, ← List.append_assoc]
  rw [h2]
  exact hv

/-- Splitting the join of pipe3-free parts on the record separator recovers
exactly the parts. -/
theorem splitOnSep_joinSep_metaSafe (parts : List Str) (hne : parts ≠ [])
    (h : ∀ t ∈ parts, hasSub pipe3 t = false) :
    splitOnSep META_SEP (joinSep META_SEP parts) = parts := by
  induction parts with
  | nil => exact absurd rfl hne
  | cons x xs ih =>
    cases xs with
    | nil =>
      simp only [joinSep]
      apply splitOnSep_eq_single
      have hx := h x (by simp)
      have : META_SEP = pipe3 ++ "META|||".toList := rfl
      cases hm : hasSub META_SEP x with
      | false => rfl
      | true =>
        rw [this] at hm
        rw [hasSub_mono_front pipe3 _ x hm] at hx
        exact absurd hx (by simp)
    | cons y ys =>
      simp only [joinSep]
      rw [splitOnSep_metaSep_boundary x _ (h x (by simp))]
      rw [ih (by simp) (fun t ht => h t (by simp [ht]))]

/-- The decoder's first-occurrence tuple split: `parseTuple` on `KEY:::value`
returns the key and the untouched value (keys never contain a colon). -/
theorem parseTuple_mkTuple (key v : Str) (hk : key.all (· ≠ ':') = true) :
    parseTuple (mkTuple key v) = (key, v) := by
  have hb := splitOnSep_boundary_charFree ':' [':', ':'] key v hk
  rw [parseTuple, mkTuple, ← FIELD_SEP_eq] at *
  rw [FIELD_SEP_eq] at hb ⊢
  rw [hb]
  simp only []
  rw [← FIELD_SEP_eq, joinSep_splitOnSep FIELD_SEP (by decide) v]

/-- A joined tuple list `includes` the record separator. -/
theorem hasSub_joinSep_two (t u : Str) (ts : List Str) :
    hasSub META_SEP (joinSep META_SEP (t :: u :: ts)) = true := by
  simp only [joinSep]
  exact hasSub_append_self META_SEP t _

theorem hasSub_charFree (c0 : Char) (p' s : Str) (h : s.all (· ≠ c0) = true) :
    hasSub (c0 :: p') s = false := by
  induction s with
  | nil => rfl
  | cons c cs ih =>
    simp only [List.all_cons, Bool.and_eq_true, decide_eq_true_eq] at h
    have hne : (c0 == c) = false := by
      simp only [beq_eq_false_iff_ne, ne_eq]
      exact fun hh => h.1 hh.symm
    simp only [hasSub, listPre, hne, Bool.false_and, Bool.false_or]
    exact ih h.2

theorem digitChar_ne_pipe (d : Nat) : digitChar d ≠ '|' := by
  unfold digitChar
  split <;> decide

theorem intToStr_all_ne_pipe (n : Int) : (intToStr n).all (· ≠ '|') = true := by
  have hnat : ∀ m : Nat, (natToStr m).all (· ≠ '|') = true := by
    intro m
    unfold natToStr
    apply List.all_eq_true.2
    intro c hc
    simp only [List.mem_map] at hc
    obtain ⟨d, hd, rfl⟩ := hc
    simp only [decide_eq_true_eq]
    exact digitChar_ne_pipe d
  unfold intToStr
  by_cases h : n < 0
  · simp only [h, if_true, List.all_cons, Bool.and_eq_true, decide_eq_true_eq]
    exact ⟨by decide, hnat _⟩
  · simp only [h, if_false]
    exact hnat _

theorem joinSep_all (sep : Str) (p : Char → Bool) (parts : List Str)
    (hsep : sep.all p = true) (h : ∀ x ∈ parts, x.all p = true) :
    (joinSep sep parts).all p = true := by
  induction parts with
  | nil => rfl
  | cons x xs ih =>
    cases xs with
    | nil => simpa using h x (by simp)
    | cons y ys =>
      simp only [joinSep, List.all_append]
      rw [h x (by simp), hsep, ih (fun z hz => h z (by simp [hz]))]
      rfl

theorem stringify_all_ne_pipe (l : List Str) (h : ∀ x ∈ l, x.all (· ≠ '|') = true) :
    (stringifyStrList l).all (· ≠ '|') = true := by
  unfold stringifyStrList
  have hj : (joinSep [','] (l.map jsonQuote)).all (· ≠ '|') = true := by
    apply joinSep_all _ _ _ (by decide)
    intro x hx
    simp only [List.mem_map] at hx
    obtain ⟨z, hz, rfl⟩ := hx
    have hz' := h z hz
    simp only [List.all_eq_true, decide_eq_true_eq] at hz'
    apply List.all_eq_true.2
    intro c hc
    simp only [jsonQuote, List.mem_cons, List.mem_append, List.mem_singleton] at hc
    simp only [decide_eq_true_eq]
    rcases hc with (rfl | hc) | (rfl | hc)
    · decide
    · exact hz' c hc
    · decide
    · exact absurd hc (List.not_mem_nil c)
  simp only [List.all_cons, List.all_append, hj, Bool.and_true, Bool.true_and]
  simp

/-- A freshly packed `description` decodes into exactly the eleven written
tuples, in order. -/
theorem metaPairs_packedMeta (movie : Movie) (mediaUrl thumbnailUrl : Str)
    (uniquePages : List Str)
    (h1 : hasSub pipe3 movie.mediaType = false)
    (h2 : hasSub pipe3 movie.aiStatus = false)
    (h3 : hasSub pipe3 movie.searchContext = false)
    (h4 : hasSub pipe3 (movie.folderName.getD []) = false)
    (h5 : hasSub pipe3 mediaUrl = false)
    (h6 : hasSub pipe3 thumbnailUrl = false)
    (h7 : ∀ g ∈ movie.genre, g.all (· ≠ '|') = true)
    (h8 : ∀ p ∈ uniquePages, p.all (· ≠ '|') = true)
    (h9 : hasSub pipe3 movie.description = false) :
    metaPairs (packedMeta movie mediaUrl thumbnailUrl uniquePages) =
      [("TYPE".toList, movie.mediaType),
       ("STATUS".toList, movie.aiStatus),
       ("SEARCH".toList, movie.searchContext),
       ("FOLDER".toList, movie.folderName.getD []),
       ("VIDEO".toList, mediaUrl),
       ("THUMB".toList, thumbnailUrl),
       ("YEAR".toList, intToStr movie.year),
       ("MATCH".toList, intToStr movie.matchScore),
       ("GENRE".toList, stringifyStrList movie.genre),
       ("COMIC".toList, stringifyStrList uniquePages),
       ("DESC".toList, movie.description)] := by
  have hsplit :
      splitOnSep META_SEP (packedMeta movie mediaUrl thumbnailUrl uniquePages) =
        [ mkTuple "TYPE".toList movie.mediaType,
          mkTuple "STATUS".toList movie.aiStatus,
          mkTuple "SEARCH".toList movie.searchContext,
          mkTuple "FOLDER".toList (movie.folderName.getD []),
          mkTuple "VIDEO".toList mediaUrl,
          mkTuple "THUMB".toList thumbnailUrl,
          mkTuple "YEAR".toList (intToStr movie.year),
          mkTuple "MATCH".toList (intToStr movie.matchScore),
          mkTuple "GENRE".toList (stringifyStrList movie.genre),
          mkTuple "COMIC".toList (stringifyStrList uniquePages),
          mkTuple "DESC".toList movie.description ] := by
    apply splitOnSep_joinSep_metaSafe _ (by simp)
    intro t ht
    simp only [List.mem_cons, List.not_mem_nil, or_false] at ht
    rcases ht with rfl | rfl | rfl | rfl | rfl | rfl | rfl | rfl | rfl | rfl | rfl
    · exact mkTuple_pipe3_free _ _ (by decide) h1
    · exact mkTuple_pipe3_free _ _ (by decide) h2
    · exact mkTuple_pipe3_free _ _ (by decide) h3
    · exact mkTuple_pipe3_free _ _ (by decide) h4
    · exact mkTuple_pipe3_free _ _ (by decide) h5
    · exact mkTuple_pipe3_free _ _ (by decide) h6
    · exact mkTuple_pipe3_free _ _ (by decide)
        (hasSub_charFree '|' ['|', '|'] _ (intToStr_all_ne_pipe _))
    · exact mkTuple_pipe3_free _ _ (by decide)
        (hasSub_charFree '|' ['|', '|'] _ (intToStr_all_ne_pipe _))
    · exact mkTuple_pipe3_free _ _ (by decide)
        (hasSub_charFree '|' ['|', '|'] _ (stringify_all_ne_pipe _ h7))
    · exact mkTuple_pipe3_free _ _ (by decide)
        (hasSub_charFree '|' ['|', '|'] _ (stringify_all_ne_pipe _ h8))
    · exact mkTuple_pipe3_free _ _ (by decide) h9
  have hinc : hasSub META_SEP (packedMeta movie mediaUrl thumbnailUrl uniquePages) = true := by
    unfold packedMeta
    exact hasSub_joinSep_two _ _ _
  unfold metaPairs
  rw [hinc]
  simp only [if_true]
  rw [hsplit]
  simp only [List.map_cons, List.map_nil]
  rw [parseTuple_mkTuple _ _ (by decide), parseTuple_mkTuple _ _ (by decide),
    parseTuple_mkTuple _ _ (by decide), parseTuple_mkTuple _ _ (by decide),
    parseTuple_mkTuple _ _ (by decide), parseTuple_mkTuple _ _ (by decide),
    parseTuple_mkTuple _ _ (by decide), parseTuple_mkTuple _ _ (by decide),
    parseTuple_mkTuple _ _ (by decide), parseTuple_mkTuple _ _ (by decide),
    parseTuple_mkTuple _ _ (by decide)]
  simp +decide [List.filter]

theorem not_data_of_http (p : Str) (h : startsWith "http".toList p = true) :
    startsWith "data:".toList p = false := by
  cases p with
  | nil => simp [startsWith, listPre] at h
  | cons c cs =>
    simp only [startsWith] at h ⊢
    have : c = 'h' := by
      simp only [show "http".toList = ['h', 't', 't', 'p'] from rfl, listPre,
        Bool.and_eq_true, beq_iff_eq] at h
      exact h.1.symm
    subst this
    simp [show "data:".toList = ['d', 'a', 't', 'a', ':'] from rfl, listPre]

/-- Pages that are already http(s) URLs pass through the upload loop
unchanged. -/
theorem uploadComicPages_http (env : SaveEnv) (movieId : Str) (pages : List Str)
    (h : ∀ p ∈ pages, startsWith "http".toList p = true) :
    ∀ i, uploadComicPages env movieId i pages = pages := by
  induction pages with
  | nil => intro i; rfl
  | cons p rest ih =>
    intro i
    have hp := h p (by simp)
    have hd := not_data_of_http p hp
    rw [uploadComicPages]
    simp only [hp, hd, Bool.not_true, Bool.false_and, Bool.and_false,
      Bool.false_eq_true, if_false]
    rw [ih (fun q hq => h q (by simp [hq])) (i + 1)]

theorem mem_of_mem_dedup (l : List Str) (y : Str) (h : y ∈ dedup l) : y ∈ l := by
  induction l using dedup.induct with
  | case1 => simpa [dedup] using h
  | case2 x xs ih =>
    rw [dedup] at h
    rcases List.mem_cons.1 h with rfl | h2
    · simp
    · have := ih h2
      simp only [List.mem_filter] at this
      simp [this.1]

/-- The deduplicated list has no duplicates. -/
theorem dedup_nodup (l : List Str) : (dedup l).Nodup := by
  induction l using dedup.induct with
  | case1 => simp [dedup]
  | case2 x xs ih =>
    rw [dedup]
    refine List.nodup_cons.2 ⟨?_, ih⟩
    intro hmem
    have := mem_of_mem_dedup _ _ hmem
    simp only [List.mem_filter, decide_eq_true_eq] at this
    exact this.2 rfl

/-- Deduplication is the identity on duplicate-free lists. -/
theorem dedup_eq_self_of_nodup (l : List Str) (h : l.Nodup) : dedup l = l := by
  induction l using dedup.induct with
  | case1 => rw [dedup]
  | case2 x xs ih =>
    rw [dedup]
    have hx : x ∉ xs := (List.nodup_cons.1 h).1
    have hfilter : xs.filter (fun y => y ≠ x) = xs := by
      apply List.filter_eq_self.2
      intro y hy
      simp only [decide_eq_true_eq, ne_eq]
      exact fun hyx => hx (hyx ▸ hy)
    rw [hfilter] at ih ⊢
    rw [ih (List.nodup_cons.1 h).2]

theorem stringifyStrList_not_empty (l : List Str) : (stringifyStrList l).isEmpty = false := by
  unfold stringifyStrList
  rfl

/-! ## The encodable domain and the round-trip theorem -/

/-- The domain on which the current scheme is faithful: valid enum strings, a
non-empty description, no field with three consecutive pipes (which would
collide with the record separator), JSON-escape-free list entries without
pipes, already-published (http) duplicate-free page URLs, a non-`data:`
thumbnail, a page list consistent with the media type, and a title that does
not trip the decoder's hardcoded repair heuristics. -/
structure Representable (m : Movie) : Prop where
  mediaType_valid : m.mediaType = "VIDEO".toList ∨ m.mediaType = "PHOTO".toList ∨
    m.mediaType = "COMIC".toList
  aiStatus_valid : m.aiStatus = "PENDING".toList ∨ m.aiStatus = "COMPLETED".toList ∨
    m.aiStatus = "FAILED".toList
  desc_ne : m.description ≠ []
  desc_pipe : hasSub pipe3 m.description = false
  search_pipe : hasSub pipe3 m.searchContext = false
  folder_ok : (match m.folderName with
    | none => true
    | some f => !f.isEmpty && !hasSub pipe3 f) = true
  thumb_pipe : hasSub pipe3 m.thumbnailUrl = false
  thumb_not_data : startsWith "data:".toList m.thumbnailUrl = false
  video_pipe : hasSub pipe3 m.videoUrl = false
  genre_ok : ∀ g ∈ m.genre, jsonPlain g = true ∧ g.all (· ≠ '|') = true
  pages_ok : ∀ p ∈ m.comicPages, jsonPlain p = true ∧ p.all (· ≠ '|') = true ∧
    startsWith "http".toList p = true
  pages_nodup : m.comicPages.Nodup
  comic_pages : m.mediaType = "COMIC".toList → m.comicPages ≠ []
  video_pages : m.mediaType = "VIDEO".toList → m.comicPages = []
  title_comicfree :
    comicTitles.any (fun t => hasSub (normalizeTitle t) (normalizeTitle m.title)) = false
  title_photofree :
    photoTitles.any (fun t => hasSub (normalizeTitle t) (normalizeTitle m.title)) = false

/-- Equality of two movies on every spec-level field: `duration` is a pure
display string that the codec does not pack (it always decodes to a default),
so it is blanked before comparing. -/
def eraseDuration (m : Movie) : Movie := { m with duration := [] }

/-- For a representable movie saved without a main file, the produced row has
the expected packed description and the returned movie is unchanged. -/
theorem saveMovieToStorage_representable (env : SaveEnv) (m : Movie)
    (hm : Representable m) :
    saveMovieToStorage env m none =
      (m, { id := m.id, title := m.title,
            description := packedMeta m m.videoUrl m.thumbnailUrl m.comicPages,
            created_at := m.createdAt }) := by
  have hup := uploadComicPages_http env m.id m.comicPages
    (fun p hp => (hm.pages_ok p hp).2.2) 0
  have hdd : dedup m.comicPages = m.comicPages := dedup_eq_self_of_nodup _ hm.pages_nodup
  unfold saveMovieToStorage
  simp only [hup, hm.thumb_not_data, Bool.and_false, Bool.false_eq_true, if_false, hdd]

/-- Decoding the row produced by encoding a representable movie restores
every packed attribute (all fields except the unpacked `duration`). -/
theorem decodeMovieRow_packedMeta (nowYear : Int) (m : Movie) (hm : Representable m) :
    eraseDuration (decodeMovieRow nowYear
      { id := m.id, title := m.title,
        description := packedMeta m m.videoUrl m.thumbnailUrl m.comicPages,
        created_at := m.createdAt }) = eraseDuration m := by
  have hT : hasSub pipe3 m.mediaType = false := by
    rcases hm.mediaType_valid with h | h | h <;> rw [h] <;> decide
  have hA : hasSub pipe3 m.aiStatus = false := by
    rcases hm.aiStatus_valid with h | h | h <;> rw [h] <;> decide
  have hF : hasSub pipe3 (m.folderName.getD []) = false := by
    have hfo := hm.folder_ok
    cases hfn : m.folderName with
    | none => decide
    | some f =>
      rw [hfn] at hfo
      simp only [Bool.and_eq_true, Bool.not_eq_true'] at hfo
      simpa using hfo.2
  have hmeta := metaPairs_packedMeta m m.videoUrl m.thumbnailUrl m.comicPages hT hA
    hm.search_pipe hF hm.video_pipe hm.thumb_pipe
    (fun g hg => (hm.genre_ok g hg).2) (fun p hp => (hm.pages_ok p hp).2.1) hm.desc_pipe
  have hdesc : m.description.isEmpty = false := by
    cases hd : m.description with
    | nil => exact absurd hd hm.desc_ne
    | cons a b => rfl
  have hAe : m.aiStatus.isEmpty = false := by
    rcases hm.aiStatus_valid with h | h | h <;> rw [h] <;> rfl
  have hTe : m.mediaType.isEmpty = false := by
    rcases hm.mediaType_valid with h | h | h <;> rw [h] <;> rfl
  have hgen : parseStrList (stringifyStrList m.genre) = some m.genre :=
    parseStrList_stringifyStrList _ (fun g hg => (hm.genre_ok g hg).1)
  have hpag : parseStrList (stringifyStrList m.comicPages) = some m.comicPages :=
    parseStrList_stringifyStrList _ (fun p hp => (hm.pages_ok p hp).1)
  unfold decodeMovieRow
  simp only [metaOf, hmeta]
  rcases hm.mediaType_valid with hMT | hMT | hMT
  · have hpv : m.comicPages = [] := hm.video_pages hMT
    cases hfn : m.folderName with
    | none =>
      simp +decide [jsOr, parseNumber, parseJSONList, parseIntJS_intToStr, hdesc, hAe, hTe,
        stringifyStrList_not_empty, hgen, hpag, hm.title_comicfree, hm.title_photofree,
        hMT, hpv, hfn, eraseDuration]
    | some f =>
      have hfo := hm.folder_ok
      rw [hfn] at hfo
      simp only [Bool.and_eq_true, Bool.not_eq_true'] at hfo
      have hfe : f.isEmpty = false := hfo.1
      simp +decide [jsOr, parseNumber, parseJSONList, parseIntJS_intToStr, hdesc, hAe, hTe,
        stringifyStrList_not_empty, hgen, hpag, hm.title_comicfree, hm.title_photofree,
        hMT, hpv, hfe, hfn, eraseDuration]
  · cases hfn : m.folderName with
    | none =>
      simp +decide [jsOr, parseNumber, parseJSONList, parseIntJS_intToStr, hdesc, hAe, hTe,
        stringifyStrList_not_empty, hgen, hpag, hm.title_comicfree, hm.title_photofree,
        hMT, hfn, eraseDuration]
    | some f =>
      have hfo := hm.folder_ok
      rw [hfn] at hfo
      simp only [Bool.and_eq_true, Bool.not_eq_true'] at hfo
      have hfe : f.isEmpty = false := hfo.1
      simp +decide [jsOr, parseNumber, parseJSONList, parseIntJS_intToStr, hdesc, hAe, hTe,
        stringifyStrList_not_empty, hgen, hpag, hm.title_comicfree, hm.title_photofree,
        hMT, hfe, hfn, eraseDuration]
  · have hpc : m.comicPages ≠ [] := hm.comic_pages hMT
    have hpce : m.comicPages.isEmpty = false := by
      cases hpcc : m.comicPages with
      | nil => exact absurd hpcc hpc
      | cons a b => rfl
    cases hfn : m.folderName with
    | none =>
      simp +decide [jsOr, parseNumber, parseJSONList, parseIntJS_intToStr, hdesc, hAe, hTe,
        stringifyStrList_not_empty, hgen, hpag, hm.title_comicfree, hm.title_photofree,
        hMT, hpce, hfn, eraseDuration]
    | some f =>
      have hfo := hm.folder_ok
      rw [hfn] at hfo
      simp only [Bool.and_eq_true, Bool.not_eq_true'] at hfo
      have hfe : f.isEmpty = false := hfo.1
      simp +decide [jsOr, parseNumber, parseJSONList, parseIntJS_intToStr, hdesc, hAe, hTe,
        stringifyStrList_not_empty, hgen, hpag, hm.title_comicfree, hm.title_photofree,
        hMT, hpce, hfe, hfn, eraseDuration]

theorem natToStr_ne_nil (m : Nat) : natToStr m ≠ [] := by
  unfold natToStr
  intro h
  have := natDigits_ne_nil m
  simp only [List.map_eq_nil_iff] at h
  exact this h

theorem intToStr_isEmpty (n : Int) : (intToStr n).isEmpty = false := by
  unfold intToStr
  by_cases h : n < 0
  · simp [h]
  · simp only [h, if_false]
    cases hx : natToStr n.toNat with
    | nil => exact absurd hx (natToStr_ne_nil _)
    | cons a b => rfl

/-- The update path's decode restores a representable movie's packed fields
(`duration` is never packed and resets to its default). -/
theorem decodeRowForUpdate_packedMeta (m : Movie) (hm : Representable m) :
    decodeRowForUpdate
      { id := m.id, title := m.title,
        description := packedMeta m m.videoUrl m.thumbnailUrl m.comicPages,
        created_at := m.createdAt } =
      { m with duration := "Unknown".toList } := by
  have hT : hasSub pipe3 m.mediaType = false := by
    rcases hm.mediaType_valid with h | h | h <;> rw [h] <;> decide
  have hA : hasSub pipe3 m.aiStatus = false := by
    rcases hm.aiStatus_valid with h | h | h <;> rw [h] <;> decide
  have hF : hasSub pipe3 (m.folderName.getD []) = false := by
    have hfo := hm.folder_ok
    cases hfn : m.folderName with
    | none => decide
    | some f =>
      rw [hfn] at hfo
      simp only [Bool.and_eq_true, Bool.not_eq_true'] at hfo
      simpa using hfo.2
  have hmeta := metaPairs_packedMeta m m.videoUrl m.thumbnailUrl m.comicPages hT hA
    hm.search_pipe hF hm.video_pipe hm.thumb_pipe
    (fun g hg => (hm.genre_ok g hg).2) (fun p hp => (hm.pages_ok p hp).2.1) hm.desc_pipe
  have hdesc : m.description.isEmpty = false := by
    cases hd : m.description with
    | nil => exact absurd hd hm.desc_ne
    | cons a b => rfl
  have hAe : m.aiStatus.isEmpty = false := by
    rcases hm.aiStatus_valid with h | h | h <;> rw [h] <;> rfl
  have hTe : m.mediaType.isEmpty = false := by
    rcases hm.mediaType_valid with h | h | h <;> rw [h] <;> rfl
  have hgen : parseStrList (stringifyStrList m.genre) = some m.genre :=
    parseStrList_stringifyStrList _ (fun g hg => (hm.genre_ok g hg).1)
  have hpag : parseStrList (stringifyStrList m.comicPages) = some m.comicPages :=
    parseStrList_stringifyStrList _ (fun p hp => (hm.pages_ok p hp).1)
  unfold decodeRowForUpdate
  simp only [metaOf, hmeta]
  cases hfn : m.folderName with
  | none =>
    simp +decide [jsOr, parseJSONList, parseIntJS_intToStr, hdesc, hAe, hTe,
      stringifyStrList_not_empty, hgen, hpag, intToStr_isEmpty, hfn]
  | some f =>
    have hfo := hm.folder_ok
    rw [hfn] at hfo
    simp only [Bool.and_eq_true, Bool.not_eq_true'] at hfo
    have hfe : f.isEmpty = false := hfo.1
    simp +decide [jsOr, parseJSONList, parseIntJS_intToStr, hdesc, hAe, hTe,
      stringifyStrList_not_empty, hgen, hpag, intToStr_isEmpty, hfe, hfn]

/-- Retitling (and blanking the unpacked duration) keeps a movie
representable as long as the new title avoids the repair heuristics. -/
theorem representable_retitle (m : Movie) (hm : Representable m) (T : Str)
    (hT1 : comicTitles.any (fun t => hasSub (normalizeTitle t) (normalizeTitle T)) = false)
    (hT2 : photoTitles.any (fun t => hasSub (normalizeTitle t) (normalizeTitle T)) = false) :
    Representable { m with title := T, duration := "Unknown".toList } :=
  ⟨hm.mediaType_valid, hm.aiStatus_valid, hm.desc_ne, hm.desc_pipe, hm.search_pipe,
   hm.folder_ok, hm.thumb_pipe, hm.thumb_not_data, hm.video_pipe, hm.genre_ok,
   hm.pages_ok, hm.pages_nodup, hm.comic_pages, hm.video_pages, hT1, hT2⟩

/-! ## Concrete instances used by witnesses and counterexamples -/

/-- A fixed environment: every page upload draws the same nonce. -/
def env0 : SaveEnv := ⟨fun _ => "q7x2p1a".toList⟩

/-- A benign, fully representable movie. -/
def mwBase : Movie :=
  { id := "m-001".toList,
    title := "Sunset Ride".toList,
    description := "An evening drive".toList,
    searchContext := "sunset car coast".toList,
    thumbnailUrl := "https://cdn.example/m-001/thumb.png".toList,
    videoUrl := "https://cdn.example/m-001/main.mp4".toList,
    comicPages := [],
    matchScore := 92,
    year := 2024,
    duration := "Unknown".toList,
    genre := ["Drama".toList, "Road".toList],
    createdAt := 1700000000000,
    mediaType := "VIDEO".toList,
    folderName := none,
    aiStatus := "COMPLETED".toList }

/-- A representable COMIC movie with folder and pages. -/
def mwComic : Movie :=
  { mwBase with
    id := "m-002".toList,
    title := "Harbor Days".toList,
    mediaType := "COMIC".toList,
    folderName := some "Trips".toList,
    comicPages := ["https://cdn.example/m-002/p0.png".toList,
                   "https://cdn.example/m-002/p1.png".toList] }

/-- A VIDEO movie whose title trips the decoder's hardcoded repair list. -/
def mvRepairTitle : Movie := { mwBase with title := "Vision Life".toList }

/-- A movie submitting the same page content (a `data:` URI) twice. -/
def mvDupPages : Movie :=
  { mwBase with
    id := "m-003".toList,
    mediaType := "PHOTO".toList,
    comicPages := ["data:image/png;base64,AAAABBBB".toList,
                   "data:image/png;base64,AAAABBBB".toList] }

/-! ## Claim C1 — metadata codec round-trip -/

/-- C1 (counterexample): the round-trip fails as stated.  A representable
VIDEO record titled "Vision Life" (one of the decoder's hardcoded repair
titles) decodes with `mediaType = COMIC`, which no defaulting rule for empty
optional fields explains. -/
theorem roundtrip_counterexample :
    mvRepairTitle.mediaType = "VIDEO".toList ∧
    (decodeMovieRow 2025 (saveMovieToStorage env0 mvRepairTitle none).2).mediaType =
      "COMIC".toList := by
  constructor
  · rfl
  · rfl

/-- C1 (amended): `decode(encode(r)) = r` on every packed attribute
(everything except the unpacked display field `duration`) for every
representable record: valid enum fields, non-empty description, no field with
three consecutive pipes, escape-free pipe-free list entries, duplicate-free
http page URLs, a non-`data:` thumbnail, page list consistent with the media
type, and a title avoiding the decoder's repair lists. -/
theorem metadata_codec_roundtrip (env : SaveEnv) (nowYear : Int) (m : Movie)
    (hm : Representable m) :
    eraseDuration (decodeMovieRow nowYear (saveMovieToStorage env m none).2) =
      eraseDuration m := by
  rw [saveMovieToStorage_representable env m hm]
  exact decodeMovieRow_packedMeta nowYear m hm

/-- C1 witness: the round-trip theorem applied to a concrete representable
movie. -/
theorem metadata_codec_roundtrip_witness :
    Representable mwComic ∧
    eraseDuration (decodeMovieRow 2025 (saveMovieToStorage env0 mwComic none).2) =
      eraseDuration mwComic :=
  ⟨by constructor <;> decide,
   metadata_codec_roundtrip env0 2025 mwComic (by constructor <;> decide)⟩

/-! ## Claim C3 — first-occurrence tuple split -/

/-- C3: decoding splits a tuple only at the first occurrence of the field
separator: for any key without a colon and any value — in particular one
containing `:::` — the decoded pair is exactly the key and the unmodified
value. -/
theorem tuple_split_first_occurrence (key v : Str) (hk : key.all (· ≠ ':') = true) :
    parseTuple (key ++ FIELD_SEP ++ v) = (key, v) :=
  parseTuple_mkTuple key v hk

/-- C3 witness: a URL value containing the field separator twice survives the
tuple decode unmodified. -/
theorem tuple_split_first_occurrence_witness :
    ("VIDEO".toList.all (· ≠ ':') = true) ∧
    hasSub FIELD_SEP "https://h/a:::b:::c".toList = true ∧
    parseTuple ("VIDEO".toList ++ FIELD_SEP ++ "https://h/a:::b:::c".toList) =
      ("VIDEO".toList, "https://h/a:::b:::c".toList) :=
  ⟨by decide, by decide,
   tuple_split_first_occurrence "VIDEO".toList "https://h/a:::b:::c".toList (by decide)⟩

/-! ## Claim C9 — page-list deduplication -/

/-- C9 (counterexample): submitting the same `data:` page content twice does
NOT yield a single deduplicated URL — each upload gets an index-suffixed path,
so the persisted record keeps two distinct URLs. -/
theorem dedup_counterexample :
    mvDupPages.comicPages.length = 2 ∧
    mvDupPages.comicPages.get? 0 = mvDupPages.comicPages.get? 1 ∧
    (saveMovieToStorage env0 mvDupPages none).1.comicPages.length = 2 := by
  refine ⟨rfl, rfl, ?_⟩
  have hshape : (saveMovieToStorage env0 mvDupPages none).1.comicPages =
      dedup (uploadComicPages env0 mvDupPages.id 0 mvDupPages.comicPages) := by
    unfold saveMovieToStorage
    rfl
  rw [hshape]
  have hup : uploadComicPages env0 mvDupPages.id 0 mvDupPages.comicPages =
      ["https://xyz.supabase.co/storage/v1/object/public/media/m-003/page_q7x2p1a_0.png".toList,
       "https://xyz.supabase.co/storage/v1/object/public/media/m-003/page_q7x2p1a_1.png".toList] := by
    simp +decide [uploadComicPages, mvDupPages, mwBase, env0, uploadToStorage, sanitizePath,
      getPublicUrl, natToStr, natDigits, digitChar, startsWith, listPre]
  rw [hup]
  simp +decide [dedup]

/-- C9 (amended): the persisted page-URL list is deduplicated at the URL
level: it never contains duplicate URLs, and for pages that are already
published http URLs the persisted list is exactly the stable deduplication of
the submitted list (so the same URL submitted twice collapses).  Identical
`data:` content at two indices, by contrast, is uploaded to two distinct
index-suffixed paths and is not collapsed (see the counterexample). -/
theorem saved_pages_deduplicated (env : SaveEnv) (m : Movie) (mainFile : Option FileRef) :
    (saveMovieToStorage env m mainFile).1.comicPages.Nodup ∧
    ((∀ p ∈ m.comicPages, startsWith "http".toList p = true) →
      (saveMovieToStorage env m mainFile).1.comicPages = dedup m.comicPages) := by
  have hshape : (saveMovieToStorage env m mainFile).1.comicPages =
      dedup (uploadComicPages env m.id 0 m.comicPages) := by
    unfold saveMovieToStorage
    cases mainFile <;> rfl
  constructor
  · rw [hshape]; exact dedup_nodup _
  · intro h
    rw [hshape, uploadComicPages_http env m.id m.comicPages h 0]

/-- C9 witness: the same already-published URL submitted twice is collapsed to
one entry in the persisted record. -/
theorem saved_pages_deduplicated_witness :
    (∀ p ∈ ({ mwBase with comicPages := ["https://cdn.example/p.png".toList,
        "https://cdn.example/p.png".toList] } : Movie).comicPages,
      startsWith "http".toList p = true) ∧
    (saveMovieToStorage env0 { mwBase with comicPages := ["https://cdn.example/p.png".toList,
        "https://cdn.example/p.png".toList] } none).1.comicPages.Nodup ∧
    (saveMovieToStorage env0 { mwBase with comicPages := ["https://cdn.example/p.png".toList,
        "https://cdn.example/p.png".toList] } none).1.comicPages =
      ["https://cdn.example/p.png".toList] := by
  refine ⟨by decide, (saved_pages_deduplicated env0 _ none).1, ?_⟩
  rw [(saved_pages_deduplicated env0 _ none).2 (by decide)]
  simp +decide [dedup]

/-! ## Claim C10 — edit frame property of `updateMovieInStorage` -/

/-- C10 (counterexample): the frame property fails as stated.  Updating ONLY
the title of a stored VIDEO record to "Vision Life" makes the next read
decode `mediaType = COMIC` (the read path's title-repair heuristic), so a
packed attribute other than the updated field changes. -/
theorem update_frame_counterexample :
    (decodeMovieRow 2025 (saveMovieToStorage env0 mwBase none).2).mediaType =
      "VIDEO".toList ∧
    (decodeMovieRow 2025 (updateMovieInStorage env0 (saveMovieToStorage env0 mwBase none).2
      { title := some "Vision Life".toList }).2).mediaType = "COMIC".toList := by
  have hrep : Representable mwBase := by constructor <;> decide
  constructor
  · rw [saveMovieToStorage_representable env0 mwBase hrep]
    have h2 := congrArg Movie.mediaType (decodeMovieRow_packedMeta 2025 mwBase hrep)
    simpa [eraseDuration] using h2
  · rw [saveMovieToStorage_representable env0 mwBase hrep]
    unfold updateMovieInStorage
    rw [decodeRowForUpdate_packedMeta mwBase hrep]
    rfl

/-- C10 (amended): for a row written by the current encoder from a
representable record, an update touching only `title` — with a new title that
does not trip the read path's repair heuristics — re-encodes the row so that
every other packed attribute (description, searchContext, folderName,
videoUrl, thumbnailUrl, year, matchScore, genre, page list, mediaType,
aiStatus) decodes to the same value it had before the update. -/
theorem update_title_frame (env env2 : SaveEnv) (nowYear : Int) (m : Movie)
    (hm : Representable m) (T : Str)
    (hT1 : comicTitles.any (fun t => hasSub (normalizeTitle t) (normalizeTitle T)) = false)
    (hT2 : photoTitles.any (fun t => hasSub (normalizeTitle t) (normalizeTitle T)) = false) :
    eraseDuration (decodeMovieRow nowYear
        (updateMovieInStorage env2 (saveMovieToStorage env m none).2
          { title := some T }).2) =
      eraseDuration { m with title := T } := by
  rw [saveMovieToStorage_representable env m hm]
  unfold updateMovieInStorage
  rw [decodeRowForUpdate_packedMeta m hm]
  have happ : applyUpdates { m with duration := "Unknown".toList } { title := some T } =
      { m with title := T, duration := "Unknown".toList } := rfl
  rw [happ]
  have hrep2 := representable_retitle m hm T hT1 hT2
  rw [saveMovieToStorage_representable env2 _ hrep2]
  have hdec := decodeMovieRow_packedMeta nowYear _ hrep2
  have hshape : packedMeta { m with title := T, duration := "Unknown".toList }
        ({ m with title := T, duration := "Unknown".toList } : Movie).videoUrl
        ({ m with title := T, duration := "Unknown".toList } : Movie).thumbnailUrl
        ({ m with title := T, duration := "Unknown".toList } : Movie).comicPages =
      packedMeta { m with title := T, duration := "Unknown".toList } m.videoUrl
        m.thumbnailUrl m.comicPages := rfl
  rw [← hshape] at hdec ⊢
  rw [hdec]
  simp [eraseDuration]

/-- C10 witness: a concrete title-only update round-trips every other packed
attribute. -/
theorem update_title_frame_witness :
    Representable mwComic ∧
    eraseDuration (decodeMovieRow 2025
        (updateMovieInStorage env0 (saveMovieToStorage env0 mwComic none).2
          { title := some "Harbor Nights".toList }).2) =
      eraseDuration { mwComic with title := "Harbor Nights".toList } :=
  ⟨by constructor <;> decide,
   update_title_frame env0 env0 2025 mwComic (by constructor <;> decide)
     "Harbor Nights".toList (by decide) (by decide)⟩

/-! ## Temporal clustering engine (src/App.tsx, `groupedMovies`)

`createdAt` is epoch milliseconds (`new Date(s).getTime()`); the calendar
label `"{Mon} {day}, {year}"` is computed from it with the standard civil
calendar algorithm (the source uses the browser's local time zone; the model
uses UTC, which only shifts which label a timestamp gets, not the grouping
logic). -/

/-- `24 * 60 * 60 * 1000`. -/
def ONE_DAY : Int := 24 * 60 * 60 * 1000

/-- Days-to-civil-date conversion (proleptic Gregorian, UTC):
returns (year, month 1..12, day 1..31). -/
def civilFromDays (z0 : Int) : Int × Nat × Nat :=
  let z := z0 + 719468
  let era := z.fdiv 146097
  let doe := (z - era * 146097).toNat
  let yoe := (doe - doe / 1460 + doe / 36524 - doe / 146096) / 365
  let y := era * 400 + (yoe : Int)
  let doy := doe - (365 * yoe + yoe / 4 - yoe / 100)
  let mp := (5 * doy + 2) / 153
  let d := doy - (153 * mp + 2) / 5 + 1
  let mth := if mp < 10 then mp + 3 else mp - 9
  (if mth ≤ 2 then y + 1 else y, mth, d)

/-- `date.toLocaleString('default', { month: 'short' })` for an English
locale. -/
def monthShort : Nat → String
  | 1 => "Jan" | 2 => "Feb" | 3 => "Mar" | 4 => "Apr" | 5 => "May" | 6 => "Jun"
  | 7 => "Jul" | 8 => "Aug" | 9 => "Sep" | 10 => "Oct" | 11 => "Nov" | _ => "Dec"

/-- The automatic cluster label `` `${monthStr} ${date.getDate()}, ${date.getFullYear()}` ``. -/
def dateLabel (ms : Int) : Str :=
  let days := ms.fdiv 86400000
  let c := civilFromDays days
  (monthShort c.2.1).toList ++ " ".toList ++ natToStr c.2.2 ++ ", ".toList ++ intToStr c.1

/-- `timeDiff < 3 * ONE_DAY` against the positionally preceding record, which
must itself be unfoldered (`prevMovie && !prevMovie.folderName`). -/
def addToCurrentFlag (prev : Option Movie) (m : Movie) : Bool :=
  match prev with
  | some p => decide (p.folderName = none) &&
      decide (|p.createdAt - m.createdAt| < 3 * ONE_DAY)
  | none => false

/-- The label assignment performed by the `sorted.forEach` loop: each record
gets the key of the group it is pushed into.  `prev` is the positionally
preceding record (`sorted[index - 1]`), `cur` is `currentClusterName`. -/
def assignGo : List Movie → Option Movie → Str → List (Str × Movie)
  | [], _, _ => []
  | m :: rest, prev, cur =>
    match m.folderName with
    | some f => (f, m) :: assignGo rest (some m) cur
    | none =>
      if addToCurrentFlag prev m && !cur.isEmpty then
        (cur, m) :: assignGo rest (some m) cur
      else
        (dateLabel m.createdAt, m) :: assignGo rest (some m) (dateLabel m.createdAt)

/-- `groups[key].push(movie)` with on-demand creation, preserving the JS
object's key insertion order. -/
def pushGroup : List (Str × List Movie) → Str → Movie → List (Str × List Movie)
  | [], key, m => [(key, [m])]
  | (k, ms) :: rest, key, m =>
    if k = key then (k, ms ++ [m]) :: rest
    else (k, ms) :: pushGroup rest key m

/-- `groupedMovies` on the already time-descending-sorted list: the source's
`forEach` both computes each record's group key and pushes it; the model
separates the two (assignment list, then grouping), pushing exactly the same
(key, movie) pairs in the same order. -/
def groupMovies (sorted : List Movie) : List (Str × List Movie) :=
  (assignGo sorted none []).foldl (fun g p => pushGroup g p.1 p.2) []

/-- The per-record group labels, in input order. -/
def clusterLabels (ms : List Movie) : List Str :=
  (assignGo ms none []).map Prod.fst

/-- Modelled from the spec: the clustering rule as the claim states it, where
a record joins the open cluster iff the delta to the nearest preceding
UNFOLDERED record is below the threshold (foldered records in between are
skipped when determining the predecessor).  Used only to compare the claim's
rule against the implementation. -/
def assignGoSpec : List Movie → Option Movie → Str → List (Str × Movie)
  | [], _, _ => []
  | m :: rest, prev, cur =>
    match m.folderName with
    | some f => (f, m) :: assignGoSpec rest prev cur
    | none =>
      let addToCurrent :=
        match prev with
        | some p => decide (|p.createdAt - m.createdAt| < 3 * ONE_DAY)
        | none => false
      if addToCurrent && !cur.isEmpty then
        (cur, m) :: assignGoSpec rest (some m) cur
      else
        (dateLabel m.createdAt, m) :: assignGoSpec rest (some m) (dateLabel m.createdAt)

/-- Modelled from the spec: grouping under the claim's
nearest-preceding-unfoldered chain rule. -/
def groupMoviesSpec (sorted : List Movie) : List (Str × List Movie) :=
  (assignGoSpec sorted none []).foldl (fun g p => pushGroup g p.1 p.2) []

theorem monthShort_ne_nil (mo : Nat) : (monthShort mo).toList ≠ [] := by
  unfold monthShort
  split <;> decide

theorem dateLabel_ne_nil (ms : Int) : dateLabel ms ≠ [] := by
  unfold dateLabel
  intro h
  have := monthShort_ne_nil (civilFromDays (ms.fdiv 86400000)).2.1
  simp only [List.append_eq_nil] at h
  exact this h.1.1.1.1

theorem dateLabel_not_isEmpty (ms : Int) : (dateLabel ms).isEmpty = false := by
  cases h : dateLabel ms with
  | nil => exact absurd h (dateLabel_ne_nil ms)
  | cons a b => rfl

theorem assignGo_length (ms : List Movie) : ∀ (prev : Option Movie) (cur : Str),
    (assignGo ms prev cur).length = ms.length := by
  induction ms with
  | nil => intro prev cur; rfl
  | cons m rest ih =>
    intro prev cur
    rw [assignGo]
    cases m.folderName with
    | some f => simp [ih]
    | none =>
      by_cases h : (addToCurrentFlag prev m && !cur.isEmpty) = true
      · simp only [h, if_true, List.length_cons, ih]
      · simp only [eq_false_of_ne_true h, Bool.false_eq_true, if_false, List.length_cons, ih]

/-- After processing an unfoldered record, `currentClusterName` equals the
label just assigned to it, and that label is non-empty. -/
theorem assignGo_cons_none (m : Movie) (rest : List Movie) (prev : Option Movie)
    (cur : Str) (hm : m.folderName = none) :
    ∃ label, assignGo (m :: rest) prev cur = (label, m) :: assignGo rest (some m) label ∧
      label.isEmpty = false := by
  rw [assignGo, hm]
  by_cases h : (addToCurrentFlag prev m && !cur.isEmpty) = true
  · refine ⟨cur, ?_, ?_⟩
    · simp only [h, if_true]
    · rw [Bool.and_eq_true] at h
      cases hc : cur.isEmpty
      · rfl
      · rw [hc] at h; simp at h
  · refine ⟨dateLabel m.createdAt, ?_, dateLabel_not_isEmpty _⟩
    simp only [eq_false_of_ne_true h, Bool.false_eq_true, if_false]

/-- The single-link chain rule, generalized over the loop state: an
unfoldered record's label equals its positional predecessor's label exactly
when that predecessor is unfoldered and within three days; otherwise it is a
fresh calendar-date label. -/
theorem assignGo_chain (ms : List Movie) :
    ∀ (prev : Option Movie) (cur : Str) (i : Nat) (p q : Movie),
      ms.get? i = some p → ms.get? (i + 1) = some q → q.folderName = none →
      ((assignGo ms prev cur).map Prod.fst).get? (i + 1) =
        (if p.folderName = none ∧ |p.createdAt - q.createdAt| < 3 * ONE_DAY then
          ((assignGo ms prev cur).map Prod.fst).get? i
        else some (dateLabel q.createdAt)) := by
  induction ms with
  | nil => intro prev cur i p q hp; simp at hp
  | cons m rest ih =>
    intro prev cur i p q hp hq hqf
    cases i with
    | zero =>
      simp only [List.get?_cons_zero, Option.some.injEq] at hp
      subst hp
      cases rest with
      | nil => simp at hq
      | cons r rest' =>
        simp only [List.get?_cons_succ, List.get?_cons_zero, Option.some.injEq] at hq
        subst hq
        cases hmf : m.folderName with
        | some f =>
          have heq : assignGo (m :: r :: rest') prev cur =
              (f, m) :: assignGo (r :: rest') (some m) cur := by
            rw [assignGo, hmf]
          have hflag : addToCurrentFlag (some m) r = false := by
            simp only [addToCurrentFlag]
            rw [hmf]
            simp
          have hr : assignGo (r :: rest') (some m) cur =
              (dateLabel r.createdAt, r) ::
                assignGo rest' (some r) (dateLabel r.createdAt) := by
            rw [assignGo, hqf, hflag]
            simp
          rw [heq, hr]
          simp [hmf]
        | none =>
          obtain ⟨label, heq, hne⟩ := assignGo_cons_none m (r :: rest') prev cur hmf
          have hflag : addToCurrentFlag (some m) r =
              decide (|m.createdAt - r.createdAt| < 3 * ONE_DAY) := by
            simp only [addToCurrentFlag]
            rw [hmf]
            simp
          by_cases h : |m.createdAt - r.createdAt| < 3 * ONE_DAY
          · have hr : assignGo (r :: rest') (some m) label =
                (label, r) :: assignGo rest' (some r) label := by
              rw [assignGo, hqf, hflag, hne]
              simp [h]
            rw [heq, hr]
            simp [hmf, h]
          · have hr : assignGo (r :: rest') (some m) label =
                (dateLabel r.createdAt, r) ::
                  assignGo rest' (some r) (dateLabel r.createdAt) := by
              rw [assignGo, hqf, hflag, hne]
              simp [h]
            rw [heq, hr]
            simp [hmf, h]
    | succ j =>
      simp only [List.get?_cons_succ] at hp hq
      cases hmf : m.folderName with
      | some f =>
        have heq : assignGo (m :: rest) prev cur =
            (f, m) :: assignGo rest (some m) cur := by
          rw [assignGo, hmf]
        rw [heq]
        simp only [List.map_cons, List.get?_cons_succ]
        exact ih (some m) cur j p q hp hq hqf
      | none =>
        obtain ⟨label, heq, hne⟩ := assignGo_cons_none m rest prev cur hmf
        rw [heq]
        simp only [List.map_cons, List.get?_cons_succ]
        exact ih (some m) label j p q hp hq hqf

theorem assignGo_folder_mem (ms : List Movie) :
    ∀ (prev : Option Movie) (cur : Str) (m : Movie) (f : Str),
      m ∈ ms → m.folderName = some f → (f, m) ∈ assignGo ms prev cur := by
  induction ms with
  | nil => intro _ _ _ _ h; simp at h
  | cons m' rest ih =>
    intro prev cur m f hmem hf
    rcases List.mem_cons.1 hmem with rfl | htail
    · rw [assignGo, hf]
      simp
    · rw [assignGo]
      cases hmf : m'.folderName with
      | some f' => exact List.mem_cons_of_mem _ (ih (some m') cur m f htail hf)
      | none =>
        by_cases h : (addToCurrentFlag prev m' && !cur.isEmpty) = true
        · simp only [h, if_true]
          exact List.mem_cons_of_mem _ (ih (some m') cur m f htail hf)
        · simp only [eq_false_of_ne_true h, Bool.false_eq_true, if_false]
          exact List.mem_cons_of_mem _ (ih (some m') (dateLabel m'.createdAt) m f htail hf)

theorem assignGo_pair_folder (ms : List Movie) :
    ∀ (prev : Option Movie) (cur : Str) (k : Str) (m : Movie) (f : Str),
      (k, m) ∈ assignGo ms prev cur → m.folderName = some f → k = f := by
  induction ms with
  | nil => intro _ _ _ _ _ h; simp [assignGo] at h
  | cons m' rest ih =>
    intro prev cur k m f hmem hf
    rw [assignGo] at hmem
    cases hmf : m'.folderName with
    | some f' =>
      rw [hmf] at hmem
      rcases List.mem_cons.1 hmem with heq | htail
      · injection heq with e1 e2
        subst e2
        rw [hf] at hmf
        injection hmf with e3
        rw [e1, e3]
      · exact ih (some m') cur k m f htail hf
    | none =>
      rw [hmf] at hmem
      by_cases h : (addToCurrentFlag prev m' && !cur.isEmpty) = true
      · rw [h] at hmem
        simp only [if_true] at hmem
        rcases List.mem_cons.1 hmem with heq | htail
        · injection heq with e1 e2
          subst e2
          rw [hf] at hmf
          simp at hmf
        · exact ih (some m') cur k m f htail hf
      · rw [eq_false_of_ne_true h] at hmem
        simp only [Bool.false_eq_true, if_false] at hmem
        rcases List.mem_cons.1 hmem with heq | htail
        · injection heq with e1 e2
          subst e2
          rw [hf] at hmf
          simp at hmf
        · exact ih (some m') (dateLabel m'.createdAt) k m f htail hf

theorem pushGroup_mem (g : List (Str × List Movie)) :
    ∀ (key : Str) (mv : Movie) (k : Str) (l : List Movie) (m : Movie),
      (k, l) ∈ pushGroup g key mv → m ∈ l →
      (∃ l0, (k, l0) ∈ g ∧ m ∈ l0) ∨ (k = key ∧ m = mv) := by
  induction g with
  | nil =>
    intro key mv k l m hmem hml
    simp only [pushGroup, List.mem_singleton] at hmem
    injection hmem with e1 e2
    subst e1; subst e2
    simp only [List.mem_singleton] at hml
    exact Or.inr ⟨rfl, hml⟩
  | cons p rest ih =>
    intro key mv k l m hmem hml
    obtain ⟨k0, ms0⟩ := p
    rw [pushGroup] at hmem
    by_cases h : k0 = key
    · rw [if_pos h] at hmem
      rcases List.mem_cons.1 hmem with heq | htail
      · injection heq with e1 e2
        subst e1; subst e2
        rcases List.mem_append.1 hml with h1 | h2
        · exact Or.inl ⟨ms0, by simp, h1⟩
        · simp only [List.mem_singleton] at h2
          exact Or.inr ⟨h, h2⟩
      · exact Or.inl ⟨l, List.mem_cons_of_mem _ htail, hml⟩
    · rw [if_neg h] at hmem
      rcases List.mem_cons.1 hmem with heq | htail
      · exact Or.inl ⟨l, by rw [heq]; simp, hml⟩
      · rcases ih key mv k l m htail hml with ⟨l0, hl0, hml0⟩ | hright
        · exact Or.inl ⟨l0, List.mem_cons_of_mem _ hl0, hml0⟩
        · exact Or.inr hright

theorem pushGroup_preserves (g : List (Str × List Movie)) :
    ∀ (key : Str) (mv : Movie) (k : Str) (m : Movie),
      (∃ l, (k, l) ∈ g ∧ m ∈ l) →
      ∃ l', (k, l') ∈ pushGroup g key mv ∧ m ∈ l' := by
  induction g with
  | nil => intro _ _ _ _ ⟨l, hl, _⟩; simp at hl
  | cons p rest ih =>
    intro key mv k m ⟨l, hl, hml⟩
    obtain ⟨k0, ms0⟩ := p
    rw [pushGroup]
    by_cases h : k0 = key
    · rw [if_pos h]
      rcases List.mem_cons.1 hl with heq | htail
      · injection heq with e1 e2
        refine ⟨ms0 ++ [mv], ?_, ?_⟩
        · rw [e1]; simp
        · exact List.mem_append_left _ (e2 ▸ hml)
      · exact ⟨l, List.mem_cons_of_mem _ htail, hml⟩
    · rw [if_neg h]
      rcases List.mem_cons.1 hl with heq | htail
      · exact ⟨l, by rw [heq]; simp, hml⟩
      · obtain ⟨l', hl', hml'⟩ := ih key mv k m ⟨l, htail, hml⟩
        exact ⟨l', List.mem_cons_of_mem _ hl', hml'⟩

theorem pushGroup_self (g : List (Str × List Movie)) :
    ∀ (key : Str) (mv : Movie), ∃ l, (key, l) ∈ pushGroup g key mv ∧ mv ∈ l := by
  induction g with
  | nil => intro key mv; exact ⟨[mv], by simp [pushGroup], by simp⟩
  | cons p rest ih =>
    intro key mv
    obtain ⟨k0, ms0⟩ := p
    rw [pushGroup]
    by_cases h : k0 = key
    · rw [if_pos h]
      exact ⟨ms0 ++ [mv], by rw [h]; simp, List.mem_append_right _ (by simp)⟩
    · rw [if_neg h]
      obtain ⟨l, hl, hml⟩ := ih key mv
      exact ⟨l, List.mem_cons_of_mem _ hl, hml⟩

theorem foldl_pushGroup_mem (pairs : List (Str × Movie)) :
    ∀ (g0 : List (Str × List Movie)) (k : Str) (l : List Movie) (m : Movie),
      (k, l) ∈ pairs.foldl (fun g p => pushGroup g p.1 p.2) g0 → m ∈ l →
      (∃ l0, (k, l0) ∈ g0 ∧ m ∈ l0) ∨ (k, m) ∈ pairs := by
  induction pairs with
  | nil => intro g0 k l m hmem hml; exact Or.inl ⟨l, hmem, hml⟩
  | cons p rest ih =>
    intro g0 k l m hmem hml
    simp only [List.foldl_cons] at hmem
    rcases ih (pushGroup g0 p.1 p.2) k l m hmem hml with ⟨l0, hl0, hml0⟩ | hin
    · rcases pushGroup_mem g0 p.1 p.2 k l0 m hl0 hml0 with hleft | ⟨hk, hm⟩
      · exact Or.inl hleft
      · exact Or.inr (by rw [hk, hm]; simp)
    · exact Or.inr (List.mem_cons_of_mem _ hin)

theorem foldl_pushGroup_preserves (pairs : List (Str × Movie)) :
    ∀ (g0 : List (Str × List Movie)) (k : Str) (m : Movie),
      (∃ l, (k, l) ∈ g0 ∧ m ∈ l) →
      ∃ l, (k, l) ∈ pairs.foldl (fun g p => pushGroup g p.1 p.2) g0 ∧ m ∈ l := by
  induction pairs with
  | nil => intro g0 k m h; exact h
  | cons p rest ih =>
    intro g0 k m h
    simp only [List.foldl_cons]
    exact ih _ k m (pushGroup_preserves g0 p.1 p.2 k m h)

theorem foldl_pushGroup_self (pairs : List (Str × Movie)) :
    ∀ (g0 : List (Str × List Movie)) (k : Str) (m : Movie),
      (k, m) ∈ pairs →
      ∃ l, (k, l) ∈ pairs.foldl (fun g p => pushGroup g p.1 p.2) g0 ∧ m ∈ l := by
  induction pairs with
  | nil => intro _ _ _ h; simp at h
  | cons p rest ih =>
    intro g0 k m h
    simp only [List.foldl_cons]
    rcases List.mem_cons.1 h with heq | htail
    · apply foldl_pushGroup_preserves
      have e1 : p.1 = k := by rw [← heq]
      have e2 : p.2 = m := by rw [← heq]
      rw [← e1, ← e2]
      exact pushGroup_self g0 p.1 p.2
    · exact ih _ k m htail

/-! ## Claim C7 — folder exclusion invariant -/

/-- C7: a record with a non-empty `folderName` lands in exactly the group
labeled verbatim by that folder name: it appears in that group, and in no
group under any other label (in particular never in an automatically labeled
calendar-date cluster). -/
theorem folder_exclusion (ms : List Movie) (m : Movie) (f : Str)
    (hmem : m ∈ ms) (hf : m.folderName = some f) :
    (∃ l, (f, l) ∈ groupMovies ms ∧ m ∈ l) ∧
    (∀ k l, (k, l) ∈ groupMovies ms → m ∈ l → k = f) := by
  constructor
  · exact foldl_pushGroup_self _ [] f m (assignGo_folder_mem ms none [] m f hmem hf)
  · intro k l hkl hml
    rcases foldl_pushGroup_mem _ [] k l m hkl hml with ⟨l0, hl0, _⟩ | hin
    · simp at hl0
    · exact assignGo_pair_folder ms none [] k m f hin hf

/-- C7 witness: a foldered record in a mixed concrete library is grouped only
under its folder label. -/
theorem folder_exclusion_witness :
    mwComic ∈ [mwComic, mwBase] ∧ mwComic.folderName = some "Trips".toList ∧
    ((∃ l, ("Trips".toList, l) ∈ groupMovies [mwComic, mwBase] ∧ mwComic ∈ l) ∧
     (∀ k l, (k, l) ∈ groupMovies [mwComic, mwBase] → mwComic ∈ l → k = "Trips".toList)) :=
  ⟨by decide, by decide, folder_exclusion [mwComic, mwBase] mwComic "Trips".toList
    (by decide) (by decide)⟩

/-! ## Claim C4 — temporal clustering chain rule -/

/-- Scenario record at t = 0. -/
def cs0 : Movie := { mwBase with id := "cs0".toList, createdAt := 0 }

/-- Scenario record at t = 1 day. -/
def cs1 : Movie := { mwBase with id := "cs1".toList, createdAt := ONE_DAY }

/-- Scenario record at t = 10 days. -/
def cs10 : Movie := { mwBase with id := "cs10".toList, createdAt := 10 * ONE_DAY }

/-- Unfoldered record at t = 4 days. -/
def mxA : Movie := { mwBase with id := "mxA".toList, createdAt := 4 * ONE_DAY }

/-- Foldered record at t = 3.5 days sitting between two unfoldered ones. -/
def mxB : Movie :=
  { mwBase with id := "mxB".toList, createdAt := 302400000, folderName := some "Trip".toList }

/-- Unfoldered record at t = 3 days, within 3 days of `mxA`. -/
def mxC : Movie := { mwBase with id := "mxC".toList, createdAt := 3 * ONE_DAY }

/-- C4 (counterexample): the claim's iff fails on the code.  In the sorted
list `[mxA, mxB, mxC]` the record `mxC` is unfoldered and its nearest
preceding unfoldered record `mxA` is within 3 days, so the claim's rule (the
spec-modelled `groupMoviesSpec`) puts `mxC` into `mxA`'s open cluster
(2 groups); the implementation instead looks at the positionally preceding
record `mxB`, which is foldered, and opens a new calendar cluster
(3 groups). -/
theorem clustering_chain_counterexample :
    mxC.folderName = none ∧
    |mxA.createdAt - mxC.createdAt| < 3 * ONE_DAY ∧
    (groupMovies [mxA, mxB, mxC]).length = 3 ∧
    (groupMoviesSpec [mxA, mxB, mxC]).length = 2 ∧
    groupMovies [mxA, mxB, mxC] ≠ groupMoviesSpec [mxA, mxB, mxC] := by
  refine ⟨by decide, by decide, ?_, ?_, ?_⟩
  · simp +decide [groupMovies, assignGo, assignGoSpec, addToCurrentFlag, pushGroup, dateLabel,
      civilFromDays, monthShort, natToStr, natDigits, digitChar, intToStr, ONE_DAY,
      mxA, mxB, mxC, mwBase]
  · simp +decide [groupMoviesSpec, assignGo, assignGoSpec, addToCurrentFlag, pushGroup, dateLabel,
      civilFromDays, monthShort, natToStr, natDigits, digitChar, intToStr, ONE_DAY,
      mxA, mxB, mxC, mwBase]
  · simp +decide [groupMovies, groupMoviesSpec, assignGo, assignGoSpec, addToCurrentFlag,
      pushGroup, dateLabel, civilFromDays, monthShort, natToStr, natDigits, digitChar,
      intToStr, ONE_DAY, mxA, mxB, mxC, mwBase]

/-- C4 (amended): in the time-descending scan, an unfoldered record joins the
currently open automatic cluster iff the positionally preceding record is
itself unfoldered and within strictly less than 3 days; otherwise it opens a
cluster labeled with its own calendar date (a foldered record in between
always forces a new cluster).  In particular the t = 0 / 1 day / 10 days
scenario yields exactly the two clusters {10d} and {1d, 0}. -/
theorem temporal_clustering_chain (ms : List Movie) (i : Nat) (p q : Movie)
    (hp : ms.get? i = some p) (hq : ms.get? (i + 1) = some q)
    (hqf : q.folderName = none) :
    ((clusterLabels ms).get? (i + 1) =
      (if p.folderName = none ∧ |p.createdAt - q.createdAt| < 3 * ONE_DAY then
        (clusterLabels ms).get? i
      else some (dateLabel q.createdAt))) ∧
    groupMovies [cs10, cs1, cs0] =
      [(dateLabel (10 * ONE_DAY), [cs10]), (dateLabel ONE_DAY, [cs1, cs0])] := by
  constructor
  · exact assignGo_chain ms none [] i p q hp hq hqf
  · simp +decide [groupMovies, assignGo, addToCurrentFlag, pushGroup, dateLabel,
      civilFromDays, monthShort, natToStr, natDigits, digitChar, intToStr, ONE_DAY,
      cs0, cs1, cs10, mwBase]

/-- C4 witness: the chain rule applied in the scenario list: `cs1` (at 1 day)
follows `cs10` (at 10 days), which is more than 3 days away, so `cs1` opens a
new calendar cluster. -/
theorem temporal_clustering_chain_witness :
    ([cs10, cs1, cs0].get? 0 = some cs10) ∧
    ([cs10, cs1, cs0].get? 1 = some cs1) ∧
    cs1.folderName = none ∧
    (((clusterLabels [cs10, cs1, cs0]).get? 1 =
      (if cs10.folderName = none ∧ |cs10.createdAt - cs1.createdAt| < 3 * ONE_DAY then
        (clusterLabels [cs10, cs1, cs0]).get? 0
      else some (dateLabel cs1.createdAt))) ∧
    groupMovies [cs10, cs1, cs0] =
      [(dateLabel (10 * ONE_DAY), [cs10]), (dateLabel ONE_DAY, [cs1, cs0])]) :=
  ⟨by decide, by decide, by decide,
   temporal_clustering_chain [cs10, cs1, cs0] 0 cs10 cs1 (by decide) (by decide) (by decide)⟩

/-! ## Retry orchestration (geminiService)

The service layer wraps every Gemini call in `runWithRetry`.  The repository
carries two variants: the one bundled at the tail of
`src/components/UploadModal.tsx` (defaults `retries = 3`,
`initialDelay = 2000`, with a dedicated 403 early-exit) and the one in
`src/unnamed/part_004` (defaults `retries = 2`, `initialDelay = 1000`, no 403
branch).  Errors are abstracted to the two boolean tests the code performs:
`isRateLimit` collapses `status === 429 || code === 429 ||
message.includes('429') || status === 'RESOURCE_EXHAUSTED'` (resp. the
quota test of part_004), and `is403` collapses `status === 403 ||
code === 403 || message.includes('403')`.  The callee is an oracle indexed by
attempt number, and the realized sleep schedule is returned alongside the
result. -/

/-- Abstraction of a thrown API error: the two predicates `runWithRetry`
inspects. -/
structure ErrInfo where
  isRateLimit : Bool
  is403 : Bool
deriving DecidableEq, Repr

/-- Outcome of the retry wrapper: a propagated API error or the synthetic
"Max retries exceeded" error thrown after the loop. -/
inductive RetryErr where
  | api (e : ErrInfo)
  | exhausted
deriving DecidableEq, Repr

/-- The `for (let i = 0; i < retries; i++)` loop of `runWithRetry` in
`UploadModal.tsx`: `fuel = retries - i` iterations remain, `i` is the attempt
index, `currentDelay` the next sleep, `delays` the sleeps realized so far. -/
def runWithRetryGo {α : Type} (fn : Nat → Except ErrInfo α) (retries : Nat) :
    Nat → Nat → Nat → List Nat → Except RetryErr α × List Nat
  | 0, _, _, delays => (.error .exhausted, delays)
  | fuel + 1, i, currentDelay, delays =>
    match fn i with
    | .ok v => (.ok v, delays)
    | .error e =>
      if e.is403 = true then (.error (.api e), delays)
      else if i = retries - 1 ∨ e.isRateLimit = false then (.error (.api e), delays)
      else runWithRetryGo fn retries fuel (i + 1) (2 * currentDelay) (delays ++ [currentDelay])

/-- `runWithRetry` of `UploadModal.tsx` (call sites use the defaults
`retries = 3`, `initialDelay = 2000`). -/
def runWithRetry {α : Type} (fn : Nat → Except ErrInfo α) (retries initialDelay : Nat) :
    Except RetryErr α × List Nat :=
  runWithRetryGo fn retries retries 0 initialDelay []

namespace V2

/-- The retry loop of `src/unnamed/part_004`: same shape but no 403 branch. -/
def runWithRetryGo {α : Type} (fn : Nat → Except ErrInfo α) (retries : Nat) :
    Nat → Nat → Nat → List Nat → Except RetryErr α × List Nat
  | 0, _, _, delays => (.error .exhausted, delays)
  | fuel + 1, i, currentDelay, delays =>
    match fn i with
    | .ok v => (.ok v, delays)
    | .error e =>
      if i = retries - 1 ∨ e.isRateLimit = false then (.error (.api e), delays)
      else runWithRetryGo fn retries fuel (i + 1) (2 * currentDelay) (delays ++ [currentDelay])

/-- `runWithRetry` of `src/unnamed/part_004` (defaults `retries = 2`,
`initialDelay = 1000`). -/
def runWithRetry {α : Type} (fn : Nat → Except ErrInfo α) (retries initialDelay : Nat) :
    Except RetryErr α × List Nat :=
  runWithRetryGo fn retries retries 0 initialDelay []

end V2

/-- A rate-limit error (429-style). -/
def rlErr : ErrInfo := { isRateLimit := true, is403 := false }

/-- A permission error (403-style). -/
def permErr : ErrInfo := { isRateLimit := false, is403 := true }

/-- Oracle that rate-limit-fails on attempts 0 and 1 and succeeds on 2. -/
def fnTwoFail : Nat → Except ErrInfo Nat := fun i => if i < 2 then .error rlErr else .ok 7

/-- C6 (counterexample): the spec's scenario — fail twice with a rate-limit
signal, then succeed — does NOT return the successful result under the
`part_004` variant: with its default `retries = 2` the second failure is the
last attempt and is propagated after a single 1000 ms sleep.  The
`UploadModal.tsx` variant (defaults `retries = 3`, `initialDelay = 2000`)
does succeed, with the doubling schedule [2000, 4000]. -/
theorem retry_schedule_counterexample :
    V2.runWithRetry fnTwoFail 2 1000 = (.error (.api rlErr), [1000]) ∧
    runWithRetry fnTwoFail 3 2000 = (.ok 7, [2000, 4000]) := by
  constructor <;> rfl

/-- C6 (amended, for the `UploadModal.tsx` variant at its call-site defaults
`retries = 3`): (a) an oracle that rate-limit-fails twice then succeeds
returns the successful value after the doubling sleep schedule [d, 2d];
(b) a 403 permission error is propagated immediately, with no sleeps;
(c) an oracle that rate-limit-fails on every attempt has its last error
propagated after exhausting the schedule [d, 2d]. -/
theorem retry_backoff {α : Type} (fnA fnB fnC : Nat → Except ErrInfo α)
    (e eP : ErrInfo) (v : α) (d : Nat)
    (hrl : e.isRateLimit = true) (hrl' : e.is403 = false)
    (hA0 : fnA 0 = .error e) (hA1 : fnA 1 = .error e) (hA2 : fnA 2 = .ok v)
    (hB0 : fnB 0 = .error eP) (hP : eP.is403 = true)
    (hC0 : fnC 0 = .error e) (hC1 : fnC 1 = .error e) (hC2 : fnC 2 = .error e) :
    runWithRetry fnA 3 d = (.ok v, [d, 2 * d]) ∧
    runWithRetry fnB 3 d = (.error (.api eP), []) ∧
    runWithRetry fnC 3 d = (.error (.api e), [d, 2 * d]) := by
  refine ⟨?_, ?_, ?_⟩
  · simp [runWithRetry, runWithRetryGo, hA0, hA1, hA2, hrl, hrl']
  · simp [runWithRetry, runWithRetryGo, hB0, hP]
  · simp [runWithRetry, runWithRetryGo, hC0, hC1, hC2, hrl, hrl']

/-- Oracle that always fails with a 403 permission error. -/
def fn403 : Nat → Except ErrInfo Nat := fun _ => .error permErr

/-- Oracle that always fails with a rate-limit error. -/
def fnAlwaysRL : Nat → Except ErrInfo Nat := fun _ => .error rlErr

/-- C6 witness: the three retry behaviours at concrete oracles and the
default initial delay 2000. -/
theorem retry_backoff_witness :
    rlErr.isRateLimit = true ∧ rlErr.is403 = false ∧
    fnTwoFail 0 = .error rlErr ∧ fnTwoFail 1 = .error rlErr ∧ fnTwoFail 2 = .ok 7 ∧
    fn403 0 = .error permErr ∧ permErr.is403 = true ∧
    fnAlwaysRL 0 = .error rlErr ∧ fnAlwaysRL 1 = .error rlErr ∧ fnAlwaysRL 2 = .error rlErr ∧
    (runWithRetry fnTwoFail 3 2000 = (.ok 7, [2000, 2 * 2000]) ∧
     runWithRetry fn403 3 2000 = (.error (.api permErr), []) ∧
     runWithRetry fnAlwaysRL 3 2000 = (.error (.api rlErr), [2000, 2 * 2000])) :=
  ⟨rfl, rfl, rfl, rfl, rfl, rfl, rfl, rfl, rfl, rfl,
   retry_backoff fnTwoFail fn403 fnAlwaysRL rlErr permErr 7 2000
     rfl rfl rfl rfl rfl rfl rfl rfl rfl rfl⟩

/-! ## Comic page generation (geminiService)

`generateComicPages` asks Gemini for four pages.  The response of one
generation call is abstracted to an oracle `pageImg : Nat → Option Str`
giving, for a page index, the base64 data of the first image part of the
response, or `none` when the response carries no image part.  The
`UploadModal.tsx` variant checks `if (!pageAdded) throw new Error("A comic
page failed to generate.")` inside the per-page retry wrapper; the thrown
error is not a rate-limit signal, so the wrapper rethrows it at once and the
surrounding try/catch rethrows out of the function.  The `part_004` variant
has no such check: an imageless response is silently skipped. -/

/-- `data:image/png;base64,` prefixing applied to every collected page. -/
def dataUrlPng (d : Str) : Str := "data:image/png;base64,".toList ++ d

/-- Error message thrown by the `UploadModal.tsx` variant. -/
def comicFailMsg : Str := "A comic page failed to generate.".toList

/-- The page loop of `generateComicPages` in `UploadModal.tsx`, over the four
prompt indices. -/
def comicGo (pageImg : Nat → Option Str) : List Nat → List Str → Except Str (List Str)
  | [], pages => .ok pages
  | i :: rest, pages =>
    match pageImg i with
    | some d => comicGo pageImg rest (pages ++ [dataUrlPng d])
    | none => .error comicFailMsg

/-- `generateComicPages` of `UploadModal.tsx`: four prompts, all-or-nothing. -/
def generateComicPages (pageImg : Nat → Option Str) : Except Str (List Str) :=
  comicGo pageImg [0, 1, 2, 3] []

namespace V2

/-- The page loop of `generateComicPages` in `src/unnamed/part_004`: a page
whose response has no image part is skipped without error. -/
def comicGo (pageImg : Nat → Option Str) : List Nat → List Str → List Str
  | [], pages => pages
  | i :: rest, pages =>
    match pageImg i with
    | some d => comicGo pageImg rest (pages ++ [dataUrlPng d])
    | none => comicGo pageImg rest pages

/-- `generateComicPages` of `src/unnamed/part_004` (its loop runs
`for (let i = 1; i <= 4; i++)`). -/
def generateComicPages (pageImg : Nat → Option Str) : List Str :=
  comicGo pageImg [1, 2, 3, 4] []

end V2

/-- Oracle whose generation call yields no image at index 3 (page 3 of 4 in
the 1-based `part_004` loop) and an image at every other index. -/
def pgSkip3 : Nat → Option Str := fun i => if i = 3 then none else some ("IMG".toList)

/-- C5 (counterexample): with the `part_004` variant, a generate-image call
that fails to produce an image on page 3 of 4 does NOT make
`generateComicPages` raise: it resolves successfully with the 3 remaining
pages — a partial comic. -/
theorem comic_partial_counterexample :
    pgSkip3 3 = none ∧
    V2.generateComicPages pgSkip3 =
      [dataUrlPng ("IMG".toList), dataUrlPng ("IMG".toList), dataUrlPng ("IMG".toList)] ∧
    (V2.generateComicPages pgSkip3).length = 3 := by
  refine ⟨by decide, by decide, by decide⟩

/-- C5 (amended, for the `UploadModal.tsx` variant): the batch is
all-or-nothing — if every page call produces an image the function returns
exactly 4 pages, and if any of the four page calls produces no image the
whole call fails with "A comic page failed to generate." and no page list is
returned. -/
theorem comic_all_or_nothing (pageImg : Nat → Option Str) :
    ((∀ i, i < 4 → (pageImg i).isSome) →
      ∃ l, generateComicPages pageImg = .ok l ∧ l.length = 4) ∧
    ((∃ i, i < 4 ∧ pageImg i = none) →
      generateComicPages pageImg = .error comicFailMsg) := by
  constructor
  · intro hs
    obtain ⟨d0, h0⟩ := Option.isSome_iff_exists.1 (hs 0 (by omega))
    obtain ⟨d1, h1⟩ := Option.isSome_iff_exists.1 (hs 1 (by omega))
    obtain ⟨d2, h2⟩ := Option.isSome_iff_exists.1 (hs 2 (by omega))
    obtain ⟨d3, h3⟩ := Option.isSome_iff_exists.1 (hs 3 (by omega))
    refine ⟨[dataUrlPng d0, dataUrlPng d1, dataUrlPng d2, dataUrlPng d3], ?_, rfl⟩
    simp [generateComicPages, comicGo, h0, h1, h2, h3]
  · rintro ⟨i, hi, hnone⟩
    interval_cases i <;>
      simp [generateComicPages, comicGo, hnone] <;>
      rcases h0 : pageImg 0 with _ | d0 <;> simp [h0] <;>
      rcases h1 : pageImg 1 with _ | d1 <;> simp [h1] <;>
      rcases h2 : pageImg 2 with _ | d2 <;> simp [h2]

/-- Oracle producing an image for every page. -/
def pgAll : Nat → Option Str := fun _ => some ("IMG".toList)

/-- C5 witness: the all-or-nothing behaviour at a total oracle and at the
page-3 dropout oracle. -/
theorem comic_all_or_nothing_witness :
    ((∃ l, generateComicPages pgAll = .ok l ∧ l.length = 4) ∧
     generateComicPages pgSkip3 = .error comicFailMsg) :=
  ⟨(comic_all_or_nothing pgAll).1 (fun i _ => rfl),
   (comic_all_or_nothing pgSkip3).2 ⟨3, by omega, rfl⟩⟩

/-! ## Ingestion metadata synthesis (`processFile` in UploadModal.tsx)

The metadata phase of `processFile`: with AI enabled, a successful
`analyzeVideoContent` call yields `aiStatus = 'COMPLETED'` with the
analyzer's metadata; if the AI block throws, the catch synthesizes fallback
metadata (`title` from the file name with its extension stripped,
`description = "Waiting for AI analysis..."`) and sets
`aiStatus = 'PENDING'` instead of failing the ingestion.  With AI disabled
(manual mode), placeholder metadata is synthesized directly, also with
`aiStatus = 'PENDING'`.  The analysis call is abstracted to an
`Except`-valued oracle. -/

/-- The metadata object returned by the analyzer (types.ts
`GeneratedMetadata`). -/
structure GeneratedMetadata where
  title : Str
  description : Str
  searchContext : Str
  genre : List Str
  mood : Str
deriving DecidableEq, Repr

/-- `name.replace(/\.[^\x2f.]+$/, "")`: drop a final dot-extension — a dot
followed by one or more characters none of which is a slash or a dot,
anchored at the end of the string. -/
def stripExt (name : Str) : Str :=
  let rev := name.reverse
  let ext := rev.takeWhile (fun c => c != '.' && c != '/')
  if ext.isEmpty then name
  else
    match rev.drop ext.length with
    | '.' :: rest => rest.reverse
    | _ => name

/-- The metadata-synthesis phase of `processFile`: given the AI toggle, the
primary file's name, the names of all selected files and the outcome of the
analysis call, produce the `metadata` record and the `aiStatus` value used to
build the new movie. -/
def processFileMeta (isMagicEnabled : Bool) (primaryFileName : Str)
    (fileNameList : List Str) (analysis : Except Str GeneratedMetadata) :
    GeneratedMetadata × Str :=
  if isMagicEnabled then
    match analysis with
    | .ok md => (md, "COMPLETED".toList)
    | .error _ =>
      ({ title := stripExt primaryFileName,
         description := "Waiting for AI analysis...".toList,
         searchContext := "pending upload".toList,
         genre := ["Unsorted".toList],
         mood := "Raw".toList }, "PENDING".toList)
  else
    ({ title := stripExt primaryFileName,
       description :=
         if fileNameList.length > 1 then
           "Photo set (".toList ++ natToStr fileNameList.length ++ " images)".toList
         else "Manual upload (AI skipped)".toList,
       searchContext := joinSep (", ".toList) fileNameList,
       genre := ["Manual".toList],
       mood := "Direct".toList }, "PENDING".toList)

/-- C2 (counterexample): for a file named ".mp4" (a bare extension, a
legitimate file name), the fallback title is the empty string — the claim's
"non-empty placeholder title" fails, although `aiStatus` is indeed
`PENDING` and the ingestion does not raise. -/
theorem enrichment_title_counterexample :
    (processFileMeta true (".mp4".toList) [".mp4".toList] (.error ("quota".toList))).2 =
      "PENDING".toList ∧
    (processFileMeta true (".mp4".toList) [".mp4".toList] (.error ("quota".toList))).1.title =
      [] := by
  refine ⟨by decide, by decide⟩

/-- C2 (amended): when the analysis call fails, ingestion still produces a
record — `aiStatus = PENDING`, title is the file name with its extension
stripped (empty when the stem is empty), and a fixed non-empty placeholder
description; manual mode likewise yields `PENDING` with a non-empty
description; a successful analysis yields `COMPLETED` with the analyzer's
metadata. -/
theorem enrichment_degradation (fileName : Str) (fileNames : List Str)
    (err : Str) (md : GeneratedMetadata) :
    (processFileMeta true fileName fileNames (.error err) =
      ({ title := stripExt fileName,
         description := "Waiting for AI analysis...".toList,
         searchContext := "pending upload".toList,
         genre := ["Unsorted".toList],
         mood := "Raw".toList }, "PENDING".toList)) ∧
    (processFileMeta true fileName fileNames (.error err)).1.description ≠ [] ∧
    (processFileMeta false fileName fileNames (.error err)).2 = "PENDING".toList ∧
    (processFileMeta false fileName fileNames (.error err)).1.description ≠ [] ∧
    (processFileMeta true fileName fileNames (.ok md) = (md, "COMPLETED".toList)) := by
  refine ⟨rfl, ?_, rfl, ?_, rfl⟩
  · show "Waiting for AI analysis...".toList ≠ []
    decide
  · by_cases hl : fileNames.length > 1 <;>
      simp [processFileMeta, hl]

/-! ## Frame extraction seek points (`extractFrames` in part_003)

The seek-time computation of `extractFrames`, with JS numbers modelled as
rationals (0.6 = 3/5, 0.2 = 1/5 exactly).  `frameCount - 1 || 1` replaces a
zero divisor by 1. -/

/-- The `seekTimes` array of `extractFrames`: for one frame,
`min(2, duration / 2)`; otherwise `frameCount` points starting at
`0.2 * duration` stepping by `0.6 * duration / (frameCount - 1 || 1)`. -/
def seekTimes (duration : ℚ) (frameCount : Nat) : List ℚ :=
  if frameCount = 1 then [min 2 (duration / 2)]
  else
    let divisor : ℚ := if (frameCount : ℤ) - 1 = 0 then 1 else ((frameCount : ℤ) - 1 : ℤ)
    let step := duration * (3 / 5) / divisor
    let start := duration * (1 / 5)
    (List.range frameCount).map (fun i => start + i * step)

/-- C8: for a positive duration D and `frameCount = 2`, the seek timestamps
are exactly [D/5, 4D/5]; hence each lies in the window [0.2·D, 0.8·D] and
the sequence is strictly increasing.  For `frameCount = 1` the single seek
timestamp is `min(2, D / 2)`. -/
theorem frame_sampling_window (D : ℚ) (hD : 0 < D) :
    seekTimes D 2 = [D * (1 / 5), D * (4 / 5)] ∧
    (∀ t ∈ seekTimes D 2, D * (1 / 5) ≤ t ∧ t ≤ D * (4 / 5)) ∧
    (seekTimes D 2).Pairwise (· < ·) ∧
    seekTimes D 1 = [min 2 (D / 2)] := by
  have he : seekTimes D 2 = [D * (1 / 5), D * (4 / 5)] := by
    simp [seekTimes, List.range_succ]
    ring
  refine ⟨he, ?_, ?_, rfl⟩
  · intro t ht
    rw [he] at ht
    simp only [List.mem_cons, List.not_mem_nil, or_false] at ht
    rcases ht with rfl | rfl <;> constructor <;> linarith
  · rw [he]
    refine List.pairwise_cons.2 ⟨?_, ?_⟩
    · intro b hb
      rcases List.mem_singleton.1 hb with rfl
      linarith
    · exact List.pairwise_singleton _ _
/-- C8 witness: at D = 10 the seek points for two frames are [2, 8], inside
[2, 8] and increasing, and the single seek point is min(2, 5). -/
theorem frame_sampling_window_witness :
    (0 : ℚ) < 10 ∧
    (seekTimes 10 2 = [10 * (1 / 5), 10 * (4 / 5)] ∧
     (∀ t ∈ seekTimes 10 2, 10 * (1 / 5) ≤ t ∧ t ≤ 10 * (4 / 5)) ∧
     (seekTimes 10 2).Pairwise (· < ·) ∧
     seekTimes 10 1 = [min 2 (10 / 2)]) :=
  ⟨by norm_num, frame_sampling_window 10 (by norm_num)⟩
